import Mathlib

/-!
# Capture policies of `flow`: driver `Next` and follower `Ranged`

A shallow embedding of `flow/driver/impl/next.hpp` and
`flow/follower/impl/ranged.hpp`. The dispatch queue and the policies `AnyBefore` and
`Throttled`, of which only declarations are at hand, are modelled from their
description.

* Stamps and offsets are integers (`Int`), so `range.lower_stamp - delay_` is
  plain integer subtraction.
* A dispatch queue is a `List` of dispatches, oldest first.
* A queue iterator is a position `0 .. queue.length`; `begin()` is `0`, `end()`
  is `queue.length`, `std::prev` and `std::next` move by one.
* An output iterator is modelled by the list of dispatches written through it.
* An operation that dereferences an iterator or reads the front of the queue
  returns an `Option`; `none` stands for an access outside the queue.
-/

namespace flow

/-- The three-valued capture decision. -/
inductive State where
  | PRIMED
  | RETRY
  | ABORT
  deriving DecidableEq, Repr

/-- A stamped message: a sequencing stamp together with a payload. -/
structure Dispatch (α : Type) where
  stamp : Int
  value : α
  deriving DecidableEq, Repr

/-- Stamp accessor, `get_stamp(dispatch)`. -/
def get_stamp {α : Type} (dispatch : Dispatch α) : Int := dispatch.stamp

/-- The sequencing window handed from a driver to its followers. -/
structure CaptureRange where
  lower_stamp : Int
  upper_stamp : Int
  deriving DecidableEq, Repr

/-- Queue invariant: stamps never decrease from the front to the back. -/
@[reducible] def NonDecreasing {α : Type} (queue : List (Dispatch α)) : Prop :=
  queue.Pairwise (fun a b => get_stamp a ≤ get_stamp b)

/-! ## Standard-library algorithms on positions -/

/-- Model of `std::find_if(first, queue.end(), pred)`: the first position at or
after `first` whose dispatch satisfies `pred`, or `queue.length` if there is none. -/
def find_if {α : Type} (queue : List (Dispatch α)) (first : Nat)
    (pred : Dispatch α → Bool) : Nat :=
  first + (queue.drop first).findIdx pred

/-- Model of `std::find_if_not(first, queue.end(), pred)`. -/
def find_if_not {α : Type} (queue : List (Dispatch α)) (first : Nat)
    (pred : Dispatch α → Bool) : Nat :=
  find_if queue first (fun d => !pred d)

/-- Model of `std::copy(first, last, output)`: the dispatches at positions
`first, first + 1, ..., last - 1`, in queue order. When `last` does not lie
after `first` nothing is written. -/
def copy {α : Type} (queue : List (Dispatch α)) (first last : Nat) : List (Dispatch α) :=
  (queue.drop first).take (last - first)

/-! ## Dispatch queue operations -/

namespace DispatchQueue

/-- Modelled from the spec: `DispatchQueue::remove_before` (the queue class is not
among the sources). "`remove_before(t)` — drop every dispatch whose stamp is `< t`." -/
def remove_before {α : Type} (t : Int) (queue : List (Dispatch α)) : List (Dispatch α) :=
  queue.filter (fun d => !decide (get_stamp d < t))

/-- Modelled from the spec: `DispatchQueue::oldest_stamp` (the queue class is not
among the sources). "defined only when non-empty; otherwise fails `Empty`";
the oldest dispatch is at the front. -/
def oldest_stamp {α : Type} (queue : List (Dispatch α)) : Option Int :=
  match queue with
  | [] => none
  | d :: _ => some (get_stamp d)

/-- Modelled from the spec: `DispatchQueue::pop` (the queue class is not among the
sources). "`pop()` — remove and return oldest." -/
def pop {α : Type} (queue : List (Dispatch α)) : Option (Dispatch α × List (Dispatch α)) :=
  match queue with
  | [] => none
  | d :: rest => some (d, rest)

end DispatchQueue

/-! ## Driver `Next` -/

/-- State of a `Next` driver: its queue. -/
structure Next (α : Type) where
  queue_ : List (Dispatch α)
  deriving DecidableEq, Repr

namespace Next

/-- `Next::dry_capture_driver_impl`: the returned range is the value left in the
in/out parameter `range`. The method is `const`; the driver is returned as is. -/
def dry_capture_driver_impl {α : Type} (self : Next α) (range : CaptureRange) :
    Option (State × CaptureRange × Next α) :=
  if self.queue_.isEmpty then
    some (State.RETRY, range, self)
  else
    match DispatchQueue.oldest_stamp self.queue_ with
    | none => none
    | some t =>
      let range1 := { range with lower_stamp := t }
      let range2 := { range1 with upper_stamp := range1.lower_stamp }
      some (State.PRIMED, range2, self)

/-- `Next::capture_driver_impl`: returns the state, the range left in `range`,
the dispatches written to `output`, and the driver afterwards. -/
def capture_driver_impl {α : Type} (self : Next α) (range : CaptureRange) :
    Option (State × CaptureRange × List (Dispatch α) × Next α) :=
  match dry_capture_driver_impl self range with
  | none => none
  | some (state, range1, self1) =>
    if state = State.PRIMED then
      match DispatchQueue.pop self1.queue_ with
      | none => none
      | some (d, rest) => some (state, range1, [d], { self1 with queue_ := rest })
    else
      some (state, range1, [], self1)

/-- `Next::abort_driver_impl`. -/
def abort_driver_impl {α : Type} (self : Next α) (t_abort : Int) : Next α :=
  { self with queue_ := DispatchQueue.remove_before t_abort self.queue_ }

end Next

/-! ## Follower `Ranged` -/

/-- State of a `Ranged` follower: the capture delay and the queue. -/
structure Ranged (α : Type) where
  delay_ : Int
  queue_ : List (Dispatch α)
  deriving DecidableEq, Repr

namespace Ranged

/-- `Ranged::find_after_first`: first position whose stamp is at or after
`range.lower_stamp - delay_`. -/
def find_after_first {α : Type} (self : Ranged α) (range : CaptureRange) : Nat :=
  let offset_lower_stamp := range.lower_stamp - self.delay_
  find_if self.queue_ 0 (fun dispatch => decide (get_stamp dispatch ≥ offset_lower_stamp))

/-- `Ranged::find_before_last`: first position, searching from `after_first` (from
the beginning when `after_first` is the end), whose stamp is not at or before
`range.upper_stamp - delay_`. -/
def find_before_last {α : Type} (self : Ranged α) (range : CaptureRange)
    (after_first : Nat) : Nat :=
  let offset_upper_stamp := range.upper_stamp - self.delay_
  find_if_not self.queue_
    (if after_first = self.queue_.length then 0 else after_first)
    (fun dispatch => decide (get_stamp dispatch ≤ offset_upper_stamp))

/-- `Ranged::capture_follower_impl`: returns the state, the dispatches written to
`output`, and the follower afterwards. -/
def capture_follower_impl {α : Type} (self : Ranged α) (range : CaptureRange) :
    Option (State × List (Dispatch α) × Ranged α) :=
  if self.queue_.isEmpty then
    some (State.RETRY, [], self)
  else
    let after_first_itr := self.find_after_first range
    if after_first_itr = 0 then
      some (State.ABORT, [], self)
    else
      let before_last_itr := self.find_before_last range after_first_itr
      if before_last_itr = self.queue_.length then
        some (State.RETRY, [], self)
      else
        let first_itr := after_first_itr - 1
        let last_itr := before_last_itr + 1
        let output := copy self.queue_ first_itr last_itr
        match self.queue_[first_itr]? with
        | none => none
        | some first =>
          some (State.PRIMED, output,
            { self with queue_ := DispatchQueue.remove_before (get_stamp first) self.queue_ })

/-- `Ranged::dry_capture_follower_impl`: returns the state and the follower
afterwards; nothing is written. -/
def dry_capture_follower_impl {α : Type} (self : Ranged α) (range : CaptureRange) :
    Option (State × Ranged α) :=
  if self.queue_.isEmpty then
    some (State.RETRY, self)
  else
    let after_first_itr := self.find_after_first range
    if after_first_itr = 0 then
      some (State.ABORT, self)
    else if self.find_before_last range after_first_itr = self.queue_.length then
      some (State.RETRY, self)
    else
      match self.queue_[after_first_itr - 1]? with
      | none => none
      | some first =>
        some (State.PRIMED,
          { self with queue_ := DispatchQueue.remove_before (get_stamp first) self.queue_ })

/-- `Ranged::abort_follower_impl`: the body is empty. -/
def abort_follower_impl {α : Type} (self : Ranged α) (_t_abort : Int) : Ranged α :=
  self

end Ranged

/-- Queue built from bare stamps, the payload being the position in the list. -/
def stamped (stamps : List Int) : List (Dispatch Nat) :=
  stamps.enum.map (fun p => { stamp := p.2, value := p.1 })

/-- A `Ranged` follower with no delay holding stamps 2, 4, 6, 8, 10. -/
def ranged_bracketed : Ranged Nat := { delay_ := 0, queue_ := stamped [2, 4, 6, 8, 10] }

/-- A `Ranged` follower with no delay whose oldest stamp is already 6. -/
def ranged_late : Ranged Nat := { delay_ := 0, queue_ := stamped [6, 8] }

/-- A `Ranged` follower with no delay whose newest stamp is 5. -/
def ranged_at_upper : Ranged Nat := { delay_ := 0, queue_ := stamped [1, 5] }

/-- A `Ranged` follower with delay 1 holding two dispatches with stamp 4. -/
def ranged_repeated : Ranged Nat := { delay_ := 1, queue_ := stamped [3, 4, 4, 6, 10] }

/-! ## Pushing into a queue and running a `Next` driver -/

namespace DispatchQueue

/-- Modelled from the spec: `DispatchQueue::push` (the queue class is not among the
sources). "`push(d)` — append; fails `OutOfOrderStamp` if `stamp(d) < newest`. If size
would exceed capacity, the oldest element is evicted first." `capacity = none` is the
unbounded queue; `none` as a result is the failure. -/
def push {α : Type} (capacity : Option Nat) (d : Dispatch α) (queue : List (Dispatch α)) :
    Option (List (Dispatch α)) :=
  let room := match capacity with
    | some c => if c < queue.length + 1 then queue.tail else queue
    | none => queue
  match queue.getLast? with
  | some newest => if get_stamp d < get_stamp newest then none else some (room ++ [d])
  | none => some (room ++ [d])

end DispatchQueue

namespace Next

/-- One call made on a `Next` driver: a push of a dispatch, a capture with the
incoming value of `range`, or an abort. -/
inductive Op (α : Type) where
  | push (d : Dispatch α)
  | capture (range : CaptureRange)
  | abort (t_abort : Int)
  deriving DecidableEq, Repr

/-- Runs a sequence of calls on a `Next` driver, in order. Returns what each capture
returned (state, range left in `range`, dispatches written) and the driver afterwards;
`none` if a push or a capture failed. -/
def run {α : Type} (capacity : Option Nat) :
    Next α → List (Op α) → Option (List (State × CaptureRange × List (Dispatch α)) × Next α)
  | self, [] => some ([], self)
  | self, Op.push d :: ops =>
    match DispatchQueue.push capacity d self.queue_ with
    | none => none
    | some queue1 => run capacity { self with queue_ := queue1 } ops
  | self, Op.capture range :: ops =>
    match self.capture_driver_impl range with
    | none => none
    | some (state, range1, out, self1) =>
      match run capacity self1 ops with
      | none => none
      | some (results, self2) => some ((state, range1, out) :: results, self2)
  | self, Op.abort t_abort :: ops => run capacity (self.abort_driver_impl t_abort) ops

/-- The stamps pushed by a sequence of calls, in order. -/
def pushed_stamps {α : Type} : List (Op α) → List Int
  | [] => []
  | Op.push d :: ops => get_stamp d :: pushed_stamps ops
  | Op.capture _ :: ops => pushed_stamps ops
  | Op.abort _ :: ops => pushed_stamps ops

/-- The `range.lower_stamp` values of the PRIMED captures among capture results, in
order. -/
def primed_lower_stamps {α : Type} :
    List (State × CaptureRange × List (Dispatch α)) → List Int
  | [] => []
  | (state, range, _) :: results =>
    if state = State.PRIMED then range.lower_stamp :: primed_lower_stamps results
    else primed_lower_stamps results

end Next

/-! ## Follower `AnyBefore` -/

/-- State of an `AnyBefore` follower: the capture delay and the queue. -/
structure AnyBefore (α : Type) where
  delay_ : Int
  queue_ : List (Dispatch α)
  deriving DecidableEq, Repr

namespace AnyBefore

/-- Modelled from the spec: `AnyBefore::capture_follower_impl` (only the class
declaration `any_before.h` is among the sources, `impl/any_before.hpp` is not).
"Always PRIMED. Emits every dispatch with `stamp < range.upper_stamp − delay` then
drops them." Returns the state, the dispatches written and the follower afterwards. -/
def capture_follower_impl {α : Type} (self : AnyBefore α) (range : CaptureRange) :
    State × List (Dispatch α) × AnyBefore α :=
  let boundary := range.upper_stamp - self.delay_
  (State.PRIMED,
    self.queue_.filter (fun d => decide (get_stamp d < boundary)),
    { self with queue_ := DispatchQueue.remove_before boundary self.queue_ })

end AnyBefore

/-! ## Driver `Throttled` -/

/-- State of a `Throttled` driver: the throttling period, the stamp of the previous
captured element ("initially none") and the queue. -/
structure Throttled (α : Type) where
  throttle_period_ : Int
  previous_stamp_ : Option Int
  queue_ : List (Dispatch α)
  deriving DecidableEq, Repr

namespace Throttled

/-- Modelled from the spec: the local loop of `Throttled` dry capture (only the class
declaration `throttled.h` is among the sources, `impl/throttled.hpp` is not). "If
`previous_stamp` is set and `t − previous_stamp < period`, silently drop the head and
retry locally (loop until head satisfies or queue empties)." -/
def drop_early {α : Type} (period : Int) (previous : Option Int) :
    List (Dispatch α) → List (Dispatch α)
  | [] => []
  | d :: rest =>
    match previous with
    | some t_previous =>
      if get_stamp d - t_previous < period then drop_early period previous rest
      else d :: rest
    | none => d :: rest

/-- Modelled from the spec: `Throttled::dry_capture_driver_impl`. "if queue empty →
RETRY. Else let `t = oldest_stamp()`. [local loop] If queue empties → RETRY. Otherwise
set `range.lower=range.upper=t`, PRIMED." Returns the state, the range left in `range`
and the driver afterwards. -/
def dry_capture_driver_impl {α : Type} (self : Throttled α) (range : CaptureRange) :
    State × CaptureRange × Throttled α :=
  match drop_early self.throttle_period_ self.previous_stamp_ self.queue_ with
  | [] => (State.RETRY, range, { self with queue_ := [] })
  | d :: rest =>
    (State.PRIMED, { lower_stamp := get_stamp d, upper_stamp := get_stamp d },
      { self with queue_ := d :: rest })

/-- Modelled from the spec: `Throttled::capture_driver_impl`. "`capture`: after PRIMED,
pop head to `output` and set `previous_stamp = t`." Returns the state, the range left
in `range`, the dispatches written and the driver afterwards. -/
def capture_driver_impl {α : Type} (self : Throttled α) (range : CaptureRange) :
    Option (State × CaptureRange × List (Dispatch α) × Throttled α) :=
  match dry_capture_driver_impl self range with
  | (state, range1, self1) =>
    if state = State.PRIMED then
      match DispatchQueue.pop self1.queue_ with
      | none => none
      | some (d, rest) =>
        some (state, range1, [d],
          { self1 with queue_ := rest, previous_stamp_ := some range1.lower_stamp })
    else
      some (state, range1, [], self1)

/-- One call made on a `Throttled` driver: a push of a dispatch, or a capture cycle
with the incoming value of `range`. -/
inductive Op (α : Type) where
  | push (d : Dispatch α)
  | capture (range : CaptureRange)
  deriving DecidableEq, Repr

/-- Runs a sequence of pushes and capture cycles on a `Throttled` driver, in order.
Returns the dispatches emitted, in order, and the driver afterwards; `none` if a push
or a capture failed. -/
def run {α : Type} (capacity : Option Nat) :
    Throttled α → List (Op α) → Option (List (Dispatch α) × Throttled α)
  | self, [] => some ([], self)
  | self, Op.push d :: ops =>
    match DispatchQueue.push capacity d self.queue_ with
    | none => none
    | some queue1 => run capacity { self with queue_ := queue1 } ops
  | self, Op.capture range :: ops =>
    match self.capture_driver_impl range with
    | none => none
    | some (_, _, out, self1) =>
      match run capacity self1 ops with
      | none => none
      | some (emitted, self2) => some (out ++ emitted, self2)

end Throttled

/-! ## Example data -/

/-- A `Next` driver holding stamps 1, 2, 3. -/
def next_three : Next Nat := { queue_ := stamped [1, 2, 3] }

/-- A `Ranged` follower with no delay holding stamps 3, 4, 6, 7. -/
def ranged_follower : Ranged Nat := { delay_ := 0, queue_ := stamped [3, 4, 6, 7] }

/-- An `AnyBefore` follower with delay 2 holding stamps 3, 6, 9, 12. -/
def any_before_two : AnyBefore Nat := { delay_ := 2, queue_ := stamped [3, 6, 9, 12] }

/-- A fresh `Throttled` driver with period 5. -/
def throttled_five : Throttled Nat :=
  { throttle_period_ := 5, previous_stamp_ := none, queue_ := [] }

/-- Pushes of stamps 1, 2, 7, 8, 14 followed by four capture cycles. -/
def throttled_calls : List (Throttled.Op Nat) :=
  (stamped [1, 2, 7, 8, 14]).map Throttled.Op.push ++
    List.replicate 4 (Throttled.Op.capture ⟨0, 0⟩)

/-- A push of stamp 5, a capture, a push of stamp 3 into the emptied queue, a capture. -/
def next_calls_backwards : List (Next.Op Nat) :=
  [Next.Op.push ⟨5, 0⟩, Next.Op.capture ⟨0, 0⟩, Next.Op.push ⟨3, 1⟩, Next.Op.capture ⟨0, 0⟩]

/-- Pushes and captures with stamps 1, 2, 4 in order, and an abort in between. -/
def next_calls_ordered : List (Next.Op Nat) :=
  [Next.Op.push ⟨1, 0⟩, Next.Op.push ⟨2, 1⟩, Next.Op.capture ⟨0, 0⟩, Next.Op.abort 2,
    Next.Op.push ⟨4, 2⟩, Next.Op.capture ⟨0, 0⟩, Next.Op.capture ⟨0, 0⟩,
    Next.Op.capture ⟨0, 0⟩]

/-- The dispatches stamped 12 and 15, arriving after those of `ranged_bracketed`. -/
def late_arrivals : List (Dispatch Nat) := [⟨12, 5⟩, ⟨15, 6⟩]

/-! ## Auxiliary facts about searching a list -/

theorem findIdx_split {β : Type} (p : β → Bool) (l : List β)
    (h : l.findIdx p < l.length) :
    ∃ A b D, l = A ++ b :: D ∧ (∀ x ∈ A, p x = false) ∧ p b = true ∧
      A.length = l.findIdx p := by
  induction l with
  | nil => simp at h
  | cons x xs ih =>
    rw [List.findIdx_cons] at h ⊢
    cases hx : p x
    · simp only [hx, cond_false, List.length_cons, Nat.add_lt_add_iff_right] at h ⊢
      obtain ⟨A, b, D, hl, hA, hb, hlen⟩ := ih h
      refine ⟨x :: A, b, D, by simp [hl], ?_, hb, by simp [hlen]⟩
      intro y hy
      rcases List.mem_cons.mp hy with rfl | hy
      · exact hx
      · exact hA y hy
    · exact ⟨[], x, xs, rfl, by simp, hx, by simp⟩

theorem findIdx_all_false {β : Type} (p : β → Bool) (l : List β)
    (h : ∀ x ∈ l, p x = false) : l.findIdx p = l.length := by
  induction l with
  | nil => rfl
  | cons x xs ih =>
    rw [List.findIdx_cons, h x (List.mem_cons_self x xs)]
    simp [ih (fun y hy => h y (List.mem_cons_of_mem x hy))]

theorem all_false_of_findIdx_eq {β : Type} (p : β → Bool) (l : List β)
    (h : l.findIdx p = l.length) : ∀ x ∈ l, p x = false := by
  induction l with
  | nil => simp
  | cons x xs ih =>
    rw [List.findIdx_cons] at h
    cases hx : p x
    · simp only [hx, cond_false, List.length_cons, Nat.add_right_cancel_iff] at h
      intro y hy
      rcases List.mem_cons.mp hy with rfl | hy
      · exact hx
      · exact ih h y hy
    · simp [hx] at h

/-- On a queue with non-decreasing stamps, dropping every dispatch older than `t`
is the same as popping from the front while the front is older than `t`. -/
theorem remove_before_eq_dropWhile {α : Type} (t : Int) (queue : List (Dispatch α))
    (hs : NonDecreasing queue) :
    DispatchQueue.remove_before t queue =
      queue.dropWhile (fun d => decide (get_stamp d < t)) := by
  induction queue with
  | nil => rfl
  | cons x xs ih =>
    have hxs := List.pairwise_cons.mp hs
    by_cases hx : get_stamp x < t
    · have := ih hxs.2
      simp only [DispatchQueue.remove_before] at this ⊢
      simp [List.filter_cons, List.dropWhile_cons, hx, this]
    · have hall : ∀ y ∈ x :: xs, (!decide (get_stamp y < t)) = true := by
        intro y hy
        have : get_stamp x ≤ get_stamp y := by
          rcases List.mem_cons.mp hy with rfl | hy
          · exact le_refl _
          · exact hxs.1 y hy
        simp only [Bool.not_eq_true', decide_eq_false_iff_not, not_lt]
        omega
      simp only [DispatchQueue.remove_before]
      rw [List.filter_eq_self.mpr hall]
      simp [List.dropWhile_cons, hx]

/-! ## Auxiliary facts about `Ranged` -/

namespace Ranged

theorem find_after_first_eq {α : Type} (self : Ranged α) (range : CaptureRange) :
    self.find_after_first range =
      self.queue_.findIdx
        (fun d => decide (get_stamp d ≥ range.lower_stamp - self.delay_)) := by
  simp [find_after_first, find_if]

theorem find_after_first_le {α : Type} (self : Ranged α) (range : CaptureRange) :
    self.find_after_first range ≤ self.queue_.length := by
  rw [find_after_first_eq]
  exact List.findIdx_le_length _

theorem find_before_last_eq {α : Type} (self : Ranged α) (range : CaptureRange)
    (after_first : Nat) :
    self.find_before_last range after_first =
      (if after_first = self.queue_.length then 0 else after_first) +
        (self.queue_.drop (if after_first = self.queue_.length then 0 else after_first)).findIdx
          (fun d => !decide (get_stamp d ≤ range.upper_stamp - self.delay_)) := by
  simp [find_before_last, find_if_not, find_if]

/-- Shape of a PRIMED capture: the queue splits as `A ++ a :: (C ++ b :: D)` where
`A ++ [a]` are the dispatches before the lower bound, `C` runs up to the upper
bound and `b` is the first dispatch past it; the output is `a :: (C ++ [b])`. -/
theorem capture_primed_shape {α : Type} (self : Ranged α) (range : CaptureRange)
    (hr : range.lower_stamp ≤ range.upper_stamp)
    (out : List (Dispatch α)) (self1 : Ranged α)
    (h : self.capture_follower_impl range = some (State.PRIMED, out, self1)) :
    ∃ A a C b D, self.queue_ = A ++ a :: (C ++ b :: D) ∧
      (∀ x ∈ A, get_stamp x < range.lower_stamp - self.delay_) ∧
      get_stamp a < range.lower_stamp - self.delay_ ∧
      (∀ x, (C ++ [b]).head? = some x → range.lower_stamp - self.delay_ ≤ get_stamp x) ∧
      (∀ x ∈ C, get_stamp x ≤ range.upper_stamp - self.delay_) ∧
      range.upper_stamp - self.delay_ < get_stamp b ∧
      out = a :: (C ++ [b]) ∧
      self1 = { self with queue_ := DispatchQueue.remove_before (get_stamp a) self.queue_ } ∧
      self.find_after_first range = A.length + 1 ∧
      self.find_before_last range (self.find_after_first range) = A.length + 1 + C.length := by
  simp only [capture_follower_impl] at h
  split at h
  · simp at h
  split at h
  · simp at h
  split at h
  · simp at h
  rename_i hne haf hbl
  have hle := find_after_first_le self range
  rw [find_before_last_eq] at hbl ⊢
  rw [find_after_first_eq] at haf hbl hle ⊢
  rw [find_after_first_eq] at h
  generalize hi : self.queue_.findIdx
    (fun d => decide (get_stamp d ≥ range.lower_stamp - self.delay_)) = i at *
  rcases Nat.lt_or_ge i self.queue_.length with hlt | hge
  · -- `after_first` is a valid position
    obtain ⟨A1, m, D1, hq, hA1, hm, hlen⟩ := findIdx_split _ _ (hi ▸ hlt)
    rw [hi] at hlen
    rcases List.eq_nil_or_concat A1 with hnil | ⟨A, a, hA⟩
    · subst hnil; simp at hlen; omega
    rw [List.concat_eq_append] at hA
    subst hA
    have hiA : i = A.length + 1 := by simpa using hlen.symm
    have hdrop : self.queue_.drop i = m :: D1 := by
      rw [hq, ← hlen]; simp
    have hlenq : self.queue_.length = i + (m :: D1).length := by
      rw [hq, ← hlen]; simp only [List.length_append]
    rw [if_neg (Nat.ne_of_lt hlt), hdrop] at hbl ⊢
    have hlt2 : (m :: D1).findIdx
        (fun d => !decide (get_stamp d ≤ range.upper_stamp - self.delay_)) <
        (m :: D1).length := by
      have := @List.findIdx_le_length _
        (fun d : Dispatch α => !decide (get_stamp d ≤ range.upper_stamp - self.delay_))
        (m :: D1)
      omega
    obtain ⟨C, b, D, hCD, hC, hb, hlenC⟩ := findIdx_split _ _ hlt2
    have hq2 : self.queue_ = A ++ a :: (C ++ b :: D) := by
      rw [hq, hCD]; simp
    have hget : self.queue_[i - 1]? = some a := by
      have h1 : A.length + 1 - 1 = A.length := by omega
      rw [hq2, hiA, h1, List.getElem?_append_right (Nat.le_refl _)]
      simp
    have hblv : self.find_before_last range i = i + C.length := by
      rw [find_before_last_eq, if_neg (Nat.ne_of_lt hlt), hdrop, hlenC]
    rw [hget, hblv] at h
    simp only [Option.some.injEq, Prod.mk.injEq, true_and] at h
    obtain ⟨hout, hself⟩ := h
    refine ⟨A, a, C, b, D, hq2, ?_, ?_, ?_, ?_, ?_, ?_, hself.symm, hiA, ?_⟩
    · intro x hx
      have := hA1 x (by simp [hx])
      simp only [ge_iff_le, decide_eq_false_iff_not, not_le] at this
      exact this
    · have := hA1 a (by simp)
      simp only [ge_iff_le, decide_eq_false_iff_not, not_le] at this
      exact this
    · intro x hx
      have hhead : (C ++ b :: D).head? = some x := by
        cases C with
        | nil => simpa using hx
        | cons c cs => simpa using hx
      rw [← hCD] at hhead
      simp only [List.head?_cons, Option.some.injEq] at hhead
      subst hhead
      simp only [ge_iff_le, decide_eq_true_eq] at hm
      exact hm
    · intro x hx
      have := hC x hx
      simp only [Bool.not_eq_false', decide_eq_true_eq] at this
      exact this
    · simp only [Bool.not_eq_true', decide_eq_false_iff_not, not_le] at hb
      exact hb
    · rw [← hout, hiA]
      simp only [copy]
      rw [hq2]
      have h1 : A.length + 1 - 1 = A.length := by omega
      rw [h1, List.drop_left]
      have h2 : A.length + 1 + C.length + 1 - A.length = (a :: C).length + 1 := by
        simp only [List.length_cons]; omega
      rw [h2]
      have h3 : a :: (C ++ b :: D) = (a :: C) ++ b :: D := by simp
      rw [h3, List.take_append]
      simp
    · rw [← hlenC, hiA]
  · -- `after_first` is the end: the search restarts from the beginning and fails
    exfalso
    have hie : i = self.queue_.length := Nat.le_antisymm hle hge
    apply hbl
    rw [if_pos hie]
    simp only [List.drop_zero, Nat.zero_add]
    apply findIdx_all_false
    intro x hx
    have := all_false_of_findIdx_eq _ _ (hi.trans hie) x hx
    simp only [ge_iff_le, decide_eq_false_iff_not, not_le] at this
    simp only [Bool.not_eq_false', decide_eq_true_eq]
    omega

/-- With non-decreasing stamps, every dispatch from `after_first` on is at or
after the lower bound and every dispatch behind `before_last` is past the upper
bound. -/
theorem shape_sorted {α : Type} (A C D : List (Dispatch α)) (a b : Dispatch α) (lo hi : Int)
    (hs : NonDecreasing (A ++ a :: (C ++ b :: D)))
    (hhead : ∀ x, (C ++ [b]).head? = some x → lo ≤ get_stamp x)
    (hb : hi < get_stamp b) :
    (∀ x ∈ C, lo ≤ get_stamp x) ∧ lo ≤ get_stamp b ∧
      (∀ x ∈ D, lo ≤ get_stamp x) ∧ (∀ x ∈ D, hi < get_stamp x) := by
  have h1 : NonDecreasing (C ++ b :: D) :=
    (List.pairwise_cons.mp (List.pairwise_append.mp hs).2.1).2
  have hbD : ∀ x ∈ D, get_stamp b ≤ get_stamp x :=
    (List.pairwise_cons.mp (List.pairwise_append.mp h1).2.1).1
  have hall : ∀ x ∈ C ++ b :: D, lo ≤ get_stamp x := by
    cases C with
    | nil =>
      have hlb : lo ≤ get_stamp b := hhead b (by simp)
      intro x hx
      simp only [List.nil_append, List.mem_cons] at hx
      rcases hx with rfl | hx
      · exact hlb
      · exact le_trans hlb (hbD x hx)
    | cons c cs =>
      have hlc : lo ≤ get_stamp c := hhead c (by simp)
      have hc : ∀ x ∈ cs ++ b :: D, get_stamp c ≤ get_stamp x :=
        (List.pairwise_cons.mp h1).1
      intro x hx
      simp only [List.cons_append, List.mem_cons] at hx
      rcases hx with rfl | hx
      · exact hlc
      · exact le_trans hlc (hc x hx)
  refine ⟨fun x hx => hall x (by simp [hx]), hall b (by simp),
    fun x hx => hall x (by simp [hx]), fun x hx => lt_of_lt_of_le hb (hbD x hx)⟩

/-- The position before `after_first` can be dereferenced whenever `after_first`
is not the first position. -/
theorem deref_prev {α : Type} (self : Ranged α) (range : CaptureRange)
    (haf : self.find_after_first range ≠ 0) :
    ∃ first, self.queue_[self.find_after_first range - 1]? = some first := by
  have hle := find_after_first_le self range
  have hlt : self.find_after_first range - 1 < self.queue_.length := by omega
  exact ⟨self.queue_[self.find_after_first range - 1], List.getElem?_eq_getElem hlt⟩

/-- Both capture variants return, with the same state and the same follower
afterwards. -/
theorem capture_dry_capture {α : Type} (self : Ranged α) (range : CaptureRange) :
    ∃ s out self1, self.capture_follower_impl range = some (s, out, self1) ∧
      self.dry_capture_follower_impl range = some (s, self1) := by
  simp only [capture_follower_impl, dry_capture_follower_impl]
  by_cases hE : self.queue_.isEmpty = true
  · exact ⟨State.RETRY, [], self, by simp [hE], by simp [hE]⟩
  by_cases haf : self.find_after_first range = 0
  · exact ⟨State.ABORT, [], self, by simp [hE, haf], by simp [hE, haf]⟩
  by_cases hbl : self.find_before_last range (self.find_after_first range) = self.queue_.length
  · exact ⟨State.RETRY, [], self, by simp [hE, haf, hbl], by simp [hE, haf, hbl]⟩
  obtain ⟨first, hf⟩ := deref_prev self range haf
  exact ⟨State.PRIMED, _, _, by simp only [hE, haf, hbl, hf]; rfl,
    by simp only [hE, haf, hbl, hf]; rfl⟩

/-- The decision taken by `capture_follower_impl`, in terms of the two searches. -/
theorem capture_state {α : Type} (self : Ranged α) (range : CaptureRange) :
    (self.capture_follower_impl range).map Prod.fst =
      some (if self.queue_.isEmpty = true then State.RETRY
        else if self.find_after_first range = 0 then State.ABORT
        else if self.find_before_last range (self.find_after_first range) =
          self.queue_.length then State.RETRY
        else State.PRIMED) := by
  simp only [capture_follower_impl]
  by_cases hE : self.queue_.isEmpty = true
  · simp [hE]
  by_cases haf : self.find_after_first range = 0
  · simp [hE, haf]
  by_cases hbl : self.find_before_last range (self.find_after_first range) = self.queue_.length
  · simp [hE, haf, hbl]
  obtain ⟨first, hf⟩ := deref_prev self range haf
  simp [hE, haf, hbl, hf]

/-- The first search stops at the front exactly when the front dispatch is at or
after the lower bound. -/
theorem find_after_first_eq_zero_iff {α : Type} (delay : Int) (d : Dispatch α)
    (rest : List (Dispatch α)) (range : CaptureRange) :
    find_after_first ⟨delay, d :: rest⟩ range = 0 ↔
      range.lower_stamp - delay ≤ get_stamp d := by
  rw [find_after_first_eq]
  simp only [List.findIdx_cons]
  by_cases hd : range.lower_stamp - delay ≤ get_stamp d
  · simp [hd]
  · simp [hd]

/-- Dispatches before the position found by a search all fail the predicate. -/
theorem take_findIdx_false {β : Type} (p : β → Bool) (l : List β) :
    ∀ x ∈ l.take (l.findIdx p), p x = false := by
  induction l with
  | nil => simp
  | cons y ys ih =>
    rw [List.findIdx_cons]
    cases hy : p y
    · simp only [cond_false, List.take_succ_cons, List.mem_cons]
      intro x hx
      rcases hx with rfl | hx
      · exact hy
      · exact ih x hx
    · simp

/-- For `lower_stamp ≤ upper_stamp` the second search runs off the end exactly
when no dispatch in the queue is past the upper bound. -/
theorem find_before_last_eq_length_iff {α : Type} (self : Ranged α) (range : CaptureRange)
    (hr : range.lower_stamp ≤ range.upper_stamp) :
    self.find_before_last range (self.find_after_first range) = self.queue_.length ↔
      ∀ d ∈ self.queue_, get_stamp d ≤ range.upper_stamp - self.delay_ := by
  have hle := find_after_first_le self range
  have htake := take_findIdx_false
    (fun d : Dispatch α => decide (get_stamp d ≥ range.lower_stamp - self.delay_)) self.queue_
  rw [find_before_last_eq]
  rw [find_after_first_eq] at hle ⊢
  generalize self.queue_.findIdx
    (fun d => decide (get_stamp d ≥ range.lower_stamp - self.delay_)) = i at *
  constructor
  · intro h d hd
    by_cases hie : i = self.queue_.length
    · rw [if_pos hie] at h
      simp only [List.drop_zero, Nat.zero_add] at h
      have := all_false_of_findIdx_eq _ _ h d hd
      simpa using this
    · rw [if_neg hie] at h
      have hdl : (self.queue_.drop i).findIdx
          (fun d => !decide (get_stamp d ≤ range.upper_stamp - self.delay_)) =
          (self.queue_.drop i).length := by
        rw [List.length_drop]; omega
      rw [← List.take_append_drop i self.queue_] at hd
      rcases List.mem_append.mp hd with hd | hd
      · have := htake d hd
        simp only [ge_iff_le, decide_eq_false_iff_not, not_le] at this
        omega
      · have := all_false_of_findIdx_eq _ _ hdl d hd
        simpa using this
  · intro h
    have hall : ∀ k, (self.queue_.drop k).findIdx
        (fun d => !decide (get_stamp d ≤ range.upper_stamp - self.delay_)) =
        (self.queue_.drop k).length := by
      intro k
      apply findIdx_all_false
      intro x hx
      have := h x (List.mem_of_mem_drop hx)
      simpa using this
    rw [hall, List.length_drop]
    split <;> omega

end Ranged

/-! ## Properties of the capture policies -/

/-- C1. For a queue with non-decreasing stamps and a range with
`lower_stamp ≤ upper_stamp`, a PRIMED `Ranged` capture emits exactly the run
`[prev(after_first), next(before_last))` of the queue, which is: the last dispatch
with stamp below `L = lower_stamp - delay`, then every dispatch with
`L ≤ stamp ≤ U` (`U = upper_stamp - delay`) in queue order, then the first dispatch
with stamp above `U`. -/
theorem C1_ranged_primed_emits {α : Type} (self : Ranged α) (range : CaptureRange)
    (hs : NonDecreasing self.queue_)
    (hr : range.lower_stamp ≤ range.upper_stamp)
    (out : List (Dispatch α)) (self1 : Ranged α)
    (h : self.capture_follower_impl range = some (State.PRIMED, out, self1)) :
    out = copy self.queue_ (self.find_after_first range - 1)
        (self.find_before_last range (self.find_after_first range) + 1) ∧
    ∃ a b,
      (self.queue_.filter
        (fun d => decide (get_stamp d < range.lower_stamp - self.delay_))).getLast? = some a ∧
      self.queue_.find?
        (fun d => decide (range.upper_stamp - self.delay_ < get_stamp d)) = some b ∧
      out = a :: (self.queue_.filter (fun d =>
          decide (range.lower_stamp - self.delay_ ≤ get_stamp d ∧
            get_stamp d ≤ range.upper_stamp - self.delay_)) ++ [b]) := by
  obtain ⟨A, a, C, b, D, hq, hA, ha, hhead, hC, hb, hout, -, haf, hbl⟩ :=
    Ranged.capture_primed_shape self range hr out self1 h
  rw [hq] at hs
  obtain ⟨hCl, hbl2, hDl, hDu⟩ := Ranged.shape_sorted A C D a b _ _ hs hhead hb
  constructor
  · rw [hbl, haf, hout, hq]
    simp only [copy]
    have h1 : A.length + 1 - 1 = A.length := by omega
    rw [h1, List.drop_left]
    have h2 : A.length + 1 + C.length + 1 - A.length = (a :: C).length + 1 := by
      simp only [List.length_cons]; omega
    rw [h2]
    have h3 : a :: (C ++ b :: D) = (a :: C) ++ b :: D := by simp
    rw [h3, List.take_append]
    simp
  refine ⟨a, b, ?_, ?_, ?_⟩
  · have hf1 : (A ++ [a]).filter
        (fun d => decide (get_stamp d < range.lower_stamp - self.delay_)) = A ++ [a] := by
      apply List.filter_eq_self.mpr
      intro x hx
      simp only [List.mem_append, List.mem_singleton] at hx
      rcases hx with hx | rfl
      · exact decide_eq_true (hA x hx)
      · exact decide_eq_true ha
    have hf2 : (C ++ b :: D).filter
        (fun d => decide (get_stamp d < range.lower_stamp - self.delay_)) = [] := by
      apply List.filter_eq_nil_iff.mpr
      intro x hx
      simp only [List.mem_append, List.mem_cons] at hx
      have : range.lower_stamp - self.delay_ ≤ get_stamp x := by
        rcases hx with hx | rfl | hx
        · exact hCl x hx
        · exact hbl2
        · exact hDl x hx
      simp only [decide_eq_true_eq, not_lt]
      exact this
    have hq3 : self.queue_ = (A ++ [a]) ++ (C ++ b :: D) := by rw [hq]; simp
    rw [hq3, List.filter_append, hf1, hf2]
    simp
  · rw [hq]
    have hnA : ∀ x ∈ A, ¬ (decide (range.upper_stamp - self.delay_ < get_stamp x) = true) := by
      intro x hx
      have := hA x hx
      simp only [decide_eq_true_eq, not_lt]
      omega
    have hna : decide (range.upper_stamp - self.delay_ < get_stamp a) = false := by
      simp only [decide_eq_false_iff_not, not_lt]
      omega
    have hnC : ∀ x ∈ C, ¬ (decide (range.upper_stamp - self.delay_ < get_stamp x) = true) := by
      intro x hx
      have := hC x hx
      simp only [decide_eq_true_eq, not_lt]
      exact this
    rw [List.find?_append, List.find?_eq_none.mpr hnA]
    simp only [Option.none_or, List.find?_cons, hna]
    rw [List.find?_append, List.find?_eq_none.mpr hnC]
    simp only [Option.none_or, List.find?_cons, decide_eq_true hb]
  · rw [hout, hq]
    congr 1
    have hfA : A.filter (fun d =>
        decide (range.lower_stamp - self.delay_ ≤ get_stamp d ∧
          get_stamp d ≤ range.upper_stamp - self.delay_)) = [] := by
      apply List.filter_eq_nil_iff.mpr
      intro x hx
      have := hA x hx
      simp only [decide_eq_true_eq, not_and, not_le]
      omega
    have hfa : decide (range.lower_stamp - self.delay_ ≤ get_stamp a ∧
        get_stamp a ≤ range.upper_stamp - self.delay_) = false := by
      simp only [decide_eq_false_iff_not, not_and, not_le]
      omega
    have hfC : C.filter (fun d =>
        decide (range.lower_stamp - self.delay_ ≤ get_stamp d ∧
          get_stamp d ≤ range.upper_stamp - self.delay_)) = C := by
      apply List.filter_eq_self.mpr
      intro x hx
      exact decide_eq_true ⟨hCl x hx, hC x hx⟩
    have hfb : decide (range.lower_stamp - self.delay_ ≤ get_stamp b ∧
        get_stamp b ≤ range.upper_stamp - self.delay_) = false := by
      simp only [decide_eq_false_iff_not, not_and, not_le]
      omega
    have hfD : D.filter (fun d =>
        decide (range.lower_stamp - self.delay_ ≤ get_stamp d ∧
          get_stamp d ≤ range.upper_stamp - self.delay_)) = [] := by
      apply List.filter_eq_nil_iff.mpr
      intro x hx
      have := hDu x hx
      simp only [decide_eq_true_eq, not_and, not_le]
      omega
    simp only [List.filter_append, List.filter_cons, hfA, hfa, hfC, hfb, hfD]
    simp

/-- Witness for C1: no delay, range `(5, 9)`, queue stamps 2, 4, 6, 8, 10; the capture
emits the dispatches stamped 4, 6, 8, 10. -/
theorem C1_ranged_primed_emits_witness :
    NonDecreasing ranged_bracketed.queue_ ∧
    (⟨5, 9⟩ : CaptureRange).lower_stamp ≤ (⟨5, 9⟩ : CaptureRange).upper_stamp ∧
    ranged_bracketed.capture_follower_impl ⟨5, 9⟩ =
      some (State.PRIMED, [⟨4, 1⟩, ⟨6, 2⟩, ⟨8, 3⟩, ⟨10, 4⟩],
        ⟨0, [⟨4, 1⟩, ⟨6, 2⟩, ⟨8, 3⟩, ⟨10, 4⟩]⟩) ∧
    (([⟨4, 1⟩, ⟨6, 2⟩, ⟨8, 3⟩, ⟨10, 4⟩] : List (Dispatch Nat)) =
      copy ranged_bracketed.queue_ (ranged_bracketed.find_after_first ⟨5, 9⟩ - 1)
        (ranged_bracketed.find_before_last ⟨5, 9⟩
          (ranged_bracketed.find_after_first ⟨5, 9⟩) + 1) ∧
    ∃ a b,
      (ranged_bracketed.queue_.filter
        (fun d => decide (get_stamp d <
          (⟨5, 9⟩ : CaptureRange).lower_stamp - ranged_bracketed.delay_))).getLast? = some a ∧
      ranged_bracketed.queue_.find?
        (fun d => decide ((⟨5, 9⟩ : CaptureRange).upper_stamp - ranged_bracketed.delay_ <
          get_stamp d)) = some b ∧
      ([⟨4, 1⟩, ⟨6, 2⟩, ⟨8, 3⟩, ⟨10, 4⟩] : List (Dispatch Nat)) =
        a :: (ranged_bracketed.queue_.filter (fun d =>
          decide ((⟨5, 9⟩ : CaptureRange).lower_stamp - ranged_bracketed.delay_ ≤ get_stamp d ∧
            get_stamp d ≤ (⟨5, 9⟩ : CaptureRange).upper_stamp - ranged_bracketed.delay_)) ++
          [b])) :=
  ⟨by decide, by decide, by decide,
    C1_ranged_primed_emits ranged_bracketed ⟨5, 9⟩ (by decide) (by decide)
      [⟨4, 1⟩, ⟨6, 2⟩, ⟨8, 3⟩, ⟨10, 4⟩] ⟨0, [⟨4, 1⟩, ⟨6, 2⟩, ⟨8, 3⟩, ⟨10, 4⟩]⟩ (by decide)⟩

/-- C2. On a non-empty queue with non-decreasing stamps, `Ranged` capture returns
ABORT if and only if no dispatch has a stamp strictly before
`L = lower_stamp - delay`; on an empty queue it returns RETRY (so never ABORT),
writes nothing and keeps the follower as it is. -/
theorem C2_ranged_abort_iff {α : Type} (self : Ranged α) (range : CaptureRange)
    (hne : self.queue_ ≠ [])
    (hs : NonDecreasing self.queue_) :
    ((self.capture_follower_impl range).map Prod.fst = some State.ABORT ↔
      ∀ d ∈ self.queue_, ¬ get_stamp d < range.lower_stamp - self.delay_) ∧
    (∀ (delay : Int) (r : CaptureRange),
      Ranged.capture_follower_impl (⟨delay, []⟩ : Ranged α) r =
        some (State.RETRY, [], ⟨delay, []⟩)) := by
  refine ⟨?_, fun delay r => rfl⟩
  rw [Ranged.capture_state]
  obtain ⟨delay, q⟩ := self
  cases q with
  | nil => exact absurd rfl hne
  | cons d rest =>
    have hz := Ranged.find_after_first_eq_zero_iff delay d rest range
    by_cases hd : range.lower_stamp - delay ≤ get_stamp d
    · have haf := hz.mpr hd
      simp only [List.isEmpty_cons, Bool.false_eq_true, if_false, haf, if_true, true_iff]
      intro x hx
      rcases List.mem_cons.mp hx with rfl | hx
      · omega
      · have := (List.pairwise_cons.mp hs).1 x hx
        omega
    · have haf : ¬ Ranged.find_after_first ⟨delay, d :: rest⟩ range = 0 := fun h => hd (hz.mp h)
      simp only [List.isEmpty_cons, Bool.false_eq_true, if_false, haf]
      constructor
      · intro h
        split at h <;> simp at h
      · intro h
        exact absurd (h d (List.mem_cons_self d rest)) (by simp only [not_not]; omega)

/-- Witness for C2: no delay, range `(5, 9)`, queue stamps 6, 8; every stamp is at or
after 5 and the capture aborts. -/
theorem C2_ranged_abort_iff_witness :
    ranged_late.queue_ ≠ [] ∧ NonDecreasing ranged_late.queue_ ∧
    (((ranged_late.capture_follower_impl ⟨5, 9⟩).map Prod.fst = some State.ABORT ↔
      ∀ d ∈ ranged_late.queue_,
        ¬ get_stamp d < (⟨5, 9⟩ : CaptureRange).lower_stamp - ranged_late.delay_) ∧
    (∀ (delay : Int) (r : CaptureRange),
      Ranged.capture_follower_impl (⟨delay, []⟩ : Ranged Nat) r =
        some (State.RETRY, [], ⟨delay, []⟩))) ∧
    (ranged_late.capture_follower_impl ⟨5, 9⟩).map Prod.fst = some State.ABORT :=
  ⟨by decide, by decide, C2_ranged_abort_iff ranged_late ⟨5, 9⟩ (by decide) (by decide),
    by decide⟩

/-- C3, as stated, fails: with no delay, range `(3, 5)` and queue stamps 1, 5 the queue
is non-empty and non-decreasing, holds a dispatch before `L = 3` and a dispatch with
stamp `≥ U = 5`, yet the capture returns RETRY and not PRIMED. -/
theorem C3_ranged_retry_counterexample :
    ranged_at_upper.queue_ ≠ [] ∧ NonDecreasing ranged_at_upper.queue_ ∧
    (∃ d ∈ ranged_at_upper.queue_,
      get_stamp d < (⟨3, 5⟩ : CaptureRange).lower_stamp - ranged_at_upper.delay_) ∧
    (⟨3, 5⟩ : CaptureRange).lower_stamp ≤ (⟨3, 5⟩ : CaptureRange).upper_stamp ∧
    (∃ d ∈ ranged_at_upper.queue_,
      get_stamp d ≥ (⟨3, 5⟩ : CaptureRange).upper_stamp - ranged_at_upper.delay_) ∧
    ranged_at_upper.capture_follower_impl ⟨3, 5⟩ = some (State.RETRY, [], ranged_at_upper) ∧
    (ranged_at_upper.capture_follower_impl ⟨3, 5⟩).map Prod.fst ≠ some State.PRIMED := by
  decide

/-- C3, amended. On a queue with non-decreasing stamps that holds a dispatch with
stamp strictly before `L = lower_stamp - delay`, and for `lower_stamp ≤ upper_stamp`,
`Ranged` capture returns RETRY if and only if no dispatch has a stamp strictly past
`U = upper_stamp - delay`; whenever a dispatch with stamp `> U` is present it
returns PRIMED. -/
theorem C3_ranged_retry_iff {α : Type} (self : Ranged α) (range : CaptureRange)
    (hs : NonDecreasing self.queue_)
    (hlow : ∃ d ∈ self.queue_, get_stamp d < range.lower_stamp - self.delay_)
    (hr : range.lower_stamp ≤ range.upper_stamp) :
    ((self.capture_follower_impl range).map Prod.fst = some State.RETRY ↔
      ∀ d ∈ self.queue_, ¬ range.upper_stamp - self.delay_ < get_stamp d) ∧
    ((∃ d ∈ self.queue_, range.upper_stamp - self.delay_ < get_stamp d) →
      (self.capture_follower_impl range).map Prod.fst = some State.PRIMED) := by
  have hbl := Ranged.find_before_last_eq_length_iff self range hr
  rw [Ranged.capture_state]
  obtain ⟨delay, q⟩ := self
  cases q with
  | nil =>
    obtain ⟨d, hd, -⟩ := hlow
    simp at hd
  | cons x rest =>
    dsimp only at hs hlow hbl ⊢
    have hz := Ranged.find_after_first_eq_zero_iff delay x rest range
    have hx : get_stamp x < range.lower_stamp - delay := by
      obtain ⟨d, hd, hlt⟩ := hlow
      rcases List.mem_cons.mp hd with rfl | hd
      · exact hlt
      · have := (List.pairwise_cons.mp hs).1 d hd
        omega
    have haf : ¬ Ranged.find_after_first ⟨delay, x :: rest⟩ range = 0 := by
      intro h
      have := hz.mp h
      omega
    simp only [List.isEmpty_cons, Bool.false_eq_true, if_false, haf]
    constructor
    · constructor
      · intro h d hd
        split at h
        · rename_i hlen
          have := hbl.mp hlen d hd
          omega
        · simp at h
      · intro h
        rw [if_pos]
        apply hbl.mpr
        intro d hd
        have := h d hd
        omega
    · rintro ⟨d, hd, hlt⟩
      rw [if_neg]
      intro hlen
      have := hbl.mp hlen d hd
      omega

/-- Witness for C3 (amended): no delay, range `(3, 5)`, queue stamps 1, 5; no stamp is
past 5 and the capture returns RETRY. -/
theorem C3_ranged_retry_iff_witness :
    NonDecreasing ranged_at_upper.queue_ ∧
    (∃ d ∈ ranged_at_upper.queue_,
      get_stamp d < (⟨3, 5⟩ : CaptureRange).lower_stamp - ranged_at_upper.delay_) ∧
    (⟨3, 5⟩ : CaptureRange).lower_stamp ≤ (⟨3, 5⟩ : CaptureRange).upper_stamp ∧
    (((ranged_at_upper.capture_follower_impl ⟨3, 5⟩).map Prod.fst = some State.RETRY ↔
      ∀ d ∈ ranged_at_upper.queue_,
        ¬ (⟨3, 5⟩ : CaptureRange).upper_stamp - ranged_at_upper.delay_ < get_stamp d) ∧
    ((∃ d ∈ ranged_at_upper.queue_,
        (⟨3, 5⟩ : CaptureRange).upper_stamp - ranged_at_upper.delay_ < get_stamp d) →
      (ranged_at_upper.capture_follower_impl ⟨3, 5⟩).map Prod.fst = some State.PRIMED)) :=
  ⟨by decide, by decide, by decide,
    C3_ranged_retry_iff ranged_at_upper ⟨3, 5⟩ (by decide) (by decide) (by decide)⟩

/-- C4. For `lower_stamp ≤ upper_stamp`, the sequence emitted by a PRIMED `Ranged`
capture contains a dispatch with stamp `< lower_stamp - delay` and a dispatch with
stamp `≥ upper_stamp - delay` (the latter is in fact strictly past it). This holds
for every queue, ordered or not. -/
theorem C4_ranged_primed_brackets {α : Type} (self : Ranged α) (range : CaptureRange)
    (hr : range.lower_stamp ≤ range.upper_stamp)
    (out : List (Dispatch α)) (self1 : Ranged α)
    (h : self.capture_follower_impl range = some (State.PRIMED, out, self1)) :
    (∃ d ∈ out, get_stamp d < range.lower_stamp - self.delay_) ∧
    (∃ d ∈ out, get_stamp d ≥ range.upper_stamp - self.delay_) := by
  obtain ⟨A, a, C, b, D, -, -, ha, -, -, hb, hout, -, -, -⟩ :=
    Ranged.capture_primed_shape self range hr out self1 h
  subst hout
  exact ⟨⟨a, by simp, ha⟩, ⟨b, by simp, le_of_lt hb⟩⟩

/-- Witness for C4: delay 1, range `(6, 10)`, queue stamps 3, 4, 4, 6, 10; the capture
emits the dispatches stamped 4, 6, 10. -/
theorem C4_ranged_primed_brackets_witness :
    (⟨6, 10⟩ : CaptureRange).lower_stamp ≤ (⟨6, 10⟩ : CaptureRange).upper_stamp ∧
    ranged_repeated.capture_follower_impl ⟨6, 10⟩ =
      some (State.PRIMED, [⟨4, 2⟩, ⟨6, 3⟩, ⟨10, 4⟩],
        ⟨1, [⟨4, 1⟩, ⟨4, 2⟩, ⟨6, 3⟩, ⟨10, 4⟩]⟩) ∧
    ((∃ d ∈ ([⟨4, 2⟩, ⟨6, 3⟩, ⟨10, 4⟩] : List (Dispatch Nat)),
      get_stamp d < (⟨6, 10⟩ : CaptureRange).lower_stamp - ranged_repeated.delay_) ∧
    (∃ d ∈ ([⟨4, 2⟩, ⟨6, 3⟩, ⟨10, 4⟩] : List (Dispatch Nat)),
      get_stamp d ≥ (⟨6, 10⟩ : CaptureRange).upper_stamp - ranged_repeated.delay_)) :=
  ⟨by decide, by decide,
    C4_ranged_primed_brackets ranged_repeated ⟨6, 10⟩ (by decide)
      [⟨4, 2⟩, ⟨6, 3⟩, ⟨10, 4⟩] ⟨1, [⟨4, 1⟩, ⟨4, 2⟩, ⟨6, 3⟩, ⟨10, 4⟩]⟩ (by decide)⟩

/-- C5. `dry_capture` returns the same `State` as `capture` from the same pre-state:
for `Ranged` (any delay, queue and range; both calls return), and for `Next`, where
the two calls moreover leave the same values in `range` and `dry_capture` leaves
the driver, hence its queue, unchanged. -/
theorem C5_dry_capture_same_state {α : Type} :
    (∀ (self : Ranged α) (range : CaptureRange),
      (self.capture_follower_impl range).isSome = true ∧
      (self.dry_capture_follower_impl range).map Prod.fst =
        (self.capture_follower_impl range).map Prod.fst) ∧
    (∀ (self : Next α) (range : CaptureRange),
      ∃ state range1 out self1,
        self.capture_driver_impl range = some (state, range1, out, self1) ∧
        self.dry_capture_driver_impl range = some (state, range1, self)) := by
  constructor
  · intro self range
    obtain ⟨s, out, self1, hc, hd⟩ := Ranged.capture_dry_capture self range
    rw [hc, hd]
    simp
  · intro self range
    obtain ⟨q⟩ := self
    cases q with
    | nil => exact ⟨State.RETRY, range, [], ⟨[]⟩, rfl, rfl⟩
    | cons d rest =>
      exact ⟨State.PRIMED, ⟨get_stamp d, get_stamp d⟩, [d], ⟨rest⟩, rfl, rfl⟩

/-- C6. From the same pre-state, `Ranged` `capture` and `dry_capture` both return and
leave the follower (delay and queue) in the same post-state; `dry_capture` has no
output, so it performs the eviction of `capture` without emitting. -/
theorem C6_ranged_dry_capture_same_queue {α : Type} (self : Ranged α)
    (range : CaptureRange) :
    ∃ state out self1,
      self.capture_follower_impl range = some (state, out, self1) ∧
      (self.dry_capture_follower_impl range).map Prod.snd = some self1 ∧
      (self.dry_capture_follower_impl range).map (fun r => r.2.queue_) =
        some self1.queue_ := by
  obtain ⟨s, out, self1, hc, hd⟩ := Ranged.capture_dry_capture self range
  exact ⟨s, out, self1, hc, by rw [hd]; rfl, by rw [hd]; rfl⟩

/-- C7. For a queue with non-decreasing stamps and `lower_stamp ≤ upper_stamp`, after
a PRIMED `Ranged` capture the queue is the original queue without the dispatches
whose stamp is strictly below the stamp of the first emitted dispatch (the others
keep their order), the delay is unchanged, and the emitted sequence is still in
the queue, as a contiguous run. -/
theorem C7_ranged_primed_queue {α : Type} (self : Ranged α) (range : CaptureRange)
    (hs : NonDecreasing self.queue_)
    (hr : range.lower_stamp ≤ range.upper_stamp)
    (out : List (Dispatch α)) (self1 : Ranged α)
    (h : self.capture_follower_impl range = some (State.PRIMED, out, self1)) :
    ∃ first rest, out = first :: rest ∧
      self1.queue_ =
        self.queue_.filter (fun d => !decide (get_stamp d < get_stamp first)) ∧
      self1.delay_ = self.delay_ ∧
      (∃ before after, self1.queue_ = before ++ out ++ after) ∧
      (∀ d ∈ out, d ∈ self1.queue_) := by
  obtain ⟨A, a, C, b, D, hq, -, -, -, -, -, hout, hself, -, -⟩ :=
    Ranged.capture_primed_shape self range hr out self1 h
  have hrun : ∃ before after, self1.queue_ = before ++ out ++ after := by
    rw [hq] at hs
    have hge : ∀ x ∈ C ++ b :: D, get_stamp a ≤ get_stamp x :=
      (List.pairwise_cons.mp (List.pairwise_append.mp hs).2.1).1
    have hkeep : (a :: (C ++ b :: D)).filter
        (fun d => !decide (get_stamp d < get_stamp a)) = a :: (C ++ b :: D) := by
      apply List.filter_eq_self.mpr
      intro x hx
      have : get_stamp a ≤ get_stamp x := by
        rcases List.mem_cons.mp hx with rfl | hx
        · exact le_refl _
        · exact hge x hx
      simp only [Bool.not_eq_true', decide_eq_false_iff_not, not_lt]
      exact this
    refine ⟨A.filter (fun d => !decide (get_stamp d < get_stamp a)), D, ?_⟩
    rw [hself, hout]
    simp only [DispatchQueue.remove_before]
    rw [hq, List.filter_append, hkeep]
    simp
  refine ⟨a, C ++ [b], hout, ?_, ?_, hrun, ?_⟩
  · rw [hself]
    rfl
  · rw [hself]
  · obtain ⟨before, after, hb⟩ := hrun
    intro d hd
    rw [hb]
    simp [hd]

/-- Witness for C7: delay 1, range `(6, 10)`, queue stamps 3, 4, 4, 6, 10; the capture
emits the dispatches stamped 4, 6, 10 (the second of the two stamped 4) and only the
dispatch stamped 3 is removed. -/
theorem C7_ranged_primed_queue_witness :
    NonDecreasing ranged_repeated.queue_ ∧
    (⟨6, 10⟩ : CaptureRange).lower_stamp ≤ (⟨6, 10⟩ : CaptureRange).upper_stamp ∧
    ranged_repeated.capture_follower_impl ⟨6, 10⟩ =
      some (State.PRIMED, [⟨4, 2⟩, ⟨6, 3⟩, ⟨10, 4⟩],
        ⟨1, [⟨4, 1⟩, ⟨4, 2⟩, ⟨6, 3⟩, ⟨10, 4⟩]⟩) ∧
    (∃ first rest, ([⟨4, 2⟩, ⟨6, 3⟩, ⟨10, 4⟩] : List (Dispatch Nat)) = first :: rest ∧
      (⟨1, [⟨4, 1⟩, ⟨4, 2⟩, ⟨6, 3⟩, ⟨10, 4⟩]⟩ : Ranged Nat).queue_ =
        ranged_repeated.queue_.filter (fun d => !decide (get_stamp d < get_stamp first)) ∧
      (⟨1, [⟨4, 1⟩, ⟨4, 2⟩, ⟨6, 3⟩, ⟨10, 4⟩]⟩ : Ranged Nat).delay_ =
        ranged_repeated.delay_ ∧
      (∃ before after,
        (⟨1, [⟨4, 1⟩, ⟨4, 2⟩, ⟨6, 3⟩, ⟨10, 4⟩]⟩ : Ranged Nat).queue_ =
          before ++ [⟨4, 2⟩, ⟨6, 3⟩, ⟨10, 4⟩] ++ after) ∧
      (∀ d ∈ ([⟨4, 2⟩, ⟨6, 3⟩, ⟨10, 4⟩] : List (Dispatch Nat)),
        d ∈ (⟨1, [⟨4, 1⟩, ⟨4, 2⟩, ⟨6, 3⟩, ⟨10, 4⟩]⟩ : Ranged Nat).queue_)) :=
  ⟨by decide, by decide, by decide,
    C7_ranged_primed_queue ranged_repeated ⟨6, 10⟩ (by decide) (by decide)
      [⟨4, 2⟩, ⟨6, 3⟩, ⟨10, 4⟩] ⟨1, [⟨4, 1⟩, ⟨4, 2⟩, ⟨6, 3⟩, ⟨10, 4⟩]⟩ (by decide)⟩

/-- C8. `Ranged` abort is a no-op for every queue and every abort stamp: the
follower afterwards is the follower before, so its queue (contents and order) and
its delay are unchanged. -/
theorem C8_ranged_abort_noop {α : Type} (self : Ranged α) (t_abort : Int) :
    self.abort_follower_impl t_abort = self ∧
    (self.abort_follower_impl t_abort).queue_ = self.queue_ ∧
    (self.abort_follower_impl t_abort).delay_ = self.delay_ :=
  ⟨rfl, rfl, rfl⟩

/-- C9, as stated, fails: with queue stamps 1, 5 and abort stamp 5, the dispatch
stamped 1 is still in the queue after `Ranged` abort. -/
theorem C9_ranged_abort_counterexample :
    ¬ (∀ d ∈ (ranged_at_upper.abort_follower_impl 5).queue_, ¬ get_stamp d < 5) ∧
    (⟨1, 0⟩ : Dispatch Nat) ∈ (ranged_at_upper.abort_follower_impl 5).queue_ := by
  decide

/-- C9, amended. `Ranged` abort evicts nothing: after `abort(t)` the queue holds no
dispatch with stamp `< t` exactly when it held none before the call. -/
theorem C9_ranged_abort_keeps_older {α : Type} (self : Ranged α) (t_abort : Int) :
    (∀ d ∈ (self.abort_follower_impl t_abort).queue_, ¬ get_stamp d < t_abort) ↔
      (∀ d ∈ self.queue_, ¬ get_stamp d < t_abort) :=
  Iff.rfl

/-- C10. `Next` capture on an empty queue returns RETRY, emits nothing and leaves
range and queue unchanged; on a non-empty queue it returns PRIMED, emits exactly
the front dispatch, leaves the tail as the queue, and sets both `lower_stamp` and
`upper_stamp` to the stamp of the emitted dispatch, whatever the incoming range. -/
theorem C10_next_capture {α : Type} (range : CaptureRange) :
    Next.capture_driver_impl (⟨[]⟩ : Next α) range = some (State.RETRY, range, [], ⟨[]⟩) ∧
    (∀ (d : Dispatch α) (rest : List (Dispatch α)),
      Next.capture_driver_impl ⟨d :: rest⟩ range =
        some (State.PRIMED, ⟨get_stamp d, get_stamp d⟩, [d], ⟨rest⟩)) :=
  ⟨rfl, fun _ _ => rfl⟩

/-! ## Auxiliary facts about `Next` and pushing -/

theorem Next.capture_nil {α : Type} (range : CaptureRange) :
    Next.capture_driver_impl (⟨[]⟩ : Next α) range = some (State.RETRY, range, [], ⟨[]⟩) :=
  rfl

theorem Next.capture_cons {α : Type} (d : Dispatch α) (rest : List (Dispatch α))
    (range : CaptureRange) :
    Next.capture_driver_impl ⟨d :: rest⟩ range =
      some (State.PRIMED, ⟨get_stamp d, get_stamp d⟩, [d], ⟨rest⟩) :=
  rfl

/-- A push whose stamp is at or after every stamp in the queue succeeds; the new
queue is the old one, possibly without dispatches at its front, followed by the
pushed dispatch. -/
theorem DispatchQueue.push_of_le {α : Type} (capacity : Option Nat) (d : Dispatch α)
    (queue : List (Dispatch α)) (h : ∀ x ∈ queue, get_stamp x ≤ get_stamp d) :
    ∃ room, room <:+ queue ∧ DispatchQueue.push capacity d queue = some (room ++ [d]) := by
  have hroom : ∃ room, room <:+ queue ∧
      (match capacity with
        | some c => if c < queue.length + 1 then queue.tail else queue
        | none => queue) = room := by
    cases capacity with
    | none => exact ⟨queue, List.suffix_refl _, rfl⟩
    | some c =>
      by_cases hc : c < queue.length + 1
      · exact ⟨queue.tail, List.tail_suffix _, by simp [hc]⟩
      · exact ⟨queue, List.suffix_refl _, by simp [hc]⟩
  obtain ⟨room, hsuf, hr⟩ := hroom
  refine ⟨room, hsuf, ?_⟩
  simp only [DispatchQueue.push, hr]
  cases hl : queue.getLast? with
  | none => rfl
  | some newest =>
    have := h newest (List.mem_of_getLast?_eq_some hl)
    have hn : ¬ get_stamp d < get_stamp newest := by omega
    simp [hn]

/-- Started on a queue whose stamps, followed by the stamps pushed later, never
decrease, a run of calls on a `Next` driver goes through, and the lower stamps of its
PRIMED captures are picked, in order, from the queue stamps followed by the pushed
stamps. -/
theorem Next.run_lower_stamps_sublist {α : Type} (capacity : Option Nat)
    (ops : List (Next.Op α)) :
    ∀ queue : List (Dispatch α),
      (queue.map get_stamp ++ Next.pushed_stamps ops).Pairwise (fun a b => a ≤ b) →
      ∃ results self1, Next.run capacity ⟨queue⟩ ops = some (results, self1) ∧
        (Next.primed_lower_stamps results).Sublist
          (queue.map get_stamp ++ Next.pushed_stamps ops) := by
  induction ops with
  | nil =>
    intro queue _
    exact ⟨[], ⟨queue⟩, rfl, by simp [Next.primed_lower_stamps]⟩
  | cons op ops ih =>
    intro queue hp
    cases op with
    | push d =>
      simp only [Next.pushed_stamps] at hp ⊢
      have hle : ∀ x ∈ queue, get_stamp x ≤ get_stamp d := by
        intro x hx
        exact (List.pairwise_append.mp hp).2.2 (get_stamp x) (List.mem_map_of_mem _ hx)
          (get_stamp d) (List.mem_cons_self _ _)
      obtain ⟨room, hsuf, hpush⟩ := DispatchQueue.push_of_le capacity d queue hle
      have hsub : ((room ++ [d]).map get_stamp ++ Next.pushed_stamps ops).Sublist
          (queue.map get_stamp ++ get_stamp d :: Next.pushed_stamps ops) := by
        have h1 : (room.map get_stamp).Sublist (queue.map get_stamp) := hsuf.sublist.map _
        have h2 := h1.append (List.Sublist.refl (get_stamp d :: Next.pushed_stamps ops))
        simpa using h2
      obtain ⟨results, self1, hrun, hres⟩ := ih (room ++ [d]) (hp.sublist hsub)
      refine ⟨results, self1, ?_, hres.trans hsub⟩
      simp only [Next.run, hpush]
      exact hrun
    | capture range =>
      simp only [Next.pushed_stamps] at hp ⊢
      cases queue with
      | nil =>
        obtain ⟨results, self1, hrun, hres⟩ := ih [] hp
        refine ⟨(State.RETRY, range, []) :: results, self1, ?_, ?_⟩
        · simp only [Next.run, Next.capture_nil, hrun]
        · simpa [Next.primed_lower_stamps] using hres
      | cons d rest =>
        have hp1 : (rest.map get_stamp ++ Next.pushed_stamps ops).Pairwise
            (fun a b => a ≤ b) := by
          simp only [List.map_cons, List.cons_append] at hp
          exact (List.pairwise_cons.mp hp).2
        obtain ⟨results, self1, hrun, hres⟩ := ih rest hp1
        refine ⟨(State.PRIMED, ⟨get_stamp d, get_stamp d⟩, [d]) :: results, self1, ?_, ?_⟩
        · simp only [Next.run, Next.capture_cons, hrun]
        · simp only [Next.primed_lower_stamps, if_true, List.map_cons, List.cons_append]
          exact hres.cons₂ _
    | abort t_abort =>
      simp only [Next.pushed_stamps] at hp ⊢
      have hsub : ((DispatchQueue.remove_before t_abort queue).map get_stamp ++
          Next.pushed_stamps ops).Sublist (queue.map get_stamp ++ Next.pushed_stamps ops) := by
        have h1 : ((DispatchQueue.remove_before t_abort queue).map get_stamp).Sublist
            (queue.map get_stamp) := (List.filter_sublist queue).map _
        exact h1.append (List.Sublist.refl _)
      obtain ⟨results, self1, hrun, hres⟩ :=
        ih (DispatchQueue.remove_before t_abort queue) (hp.sublist hsub)
      refine ⟨results, self1, ?_, hres.trans hsub⟩
      simp only [Next.run, Next.abort_driver_impl]
      exact hrun

/-! ## Properties of `Next` over several calls -/

/-- C11. On a queue holding the dispatches `d_1 .. d_n`, `n` successive `Next`
captures (whatever the incoming ranges) each return PRIMED, the `i`-th with range
`(s_i, s_i)` and emitting exactly `d_i`; afterwards the queue is empty, and a capture
on the empty queue returns RETRY. No ordering of the stamps is needed. -/
theorem C11_next_captures_in_order {α : Type} (capacity : Option Nat)
    (queue : List (Dispatch α)) (ranges : List CaptureRange)
    (hlen : ranges.length = queue.length) :
    Next.run capacity ⟨queue⟩ (ranges.map Next.Op.capture) =
      some (queue.map (fun d => (State.PRIMED, ⟨get_stamp d, get_stamp d⟩, [d])), ⟨[]⟩) ∧
    (∀ range : CaptureRange,
      Next.capture_driver_impl (⟨[]⟩ : Next α) range =
        some (State.RETRY, range, [], ⟨[]⟩)) := by
  refine ⟨?_, fun range => rfl⟩
  induction queue generalizing ranges with
  | nil =>
    cases ranges with
    | nil => rfl
    | cons r rs => simp at hlen
  | cons d rest ih =>
    cases ranges with
    | nil => simp at hlen
    | cons r rs =>
      have hlen1 : rs.length = rest.length := by simpa using hlen
      simp only [List.map_cons, Next.run, Next.capture_cons, ih rs hlen1]

/-- Witness for C11: stamps 1, 2, 3 and three captures give ranges `(1, 1)`, `(2, 2)`,
`(3, 3)` and an empty queue. -/
theorem C11_next_captures_in_order_witness :
    ([⟨0, 0⟩, ⟨7, 9⟩, ⟨0, 0⟩] : List CaptureRange).length = next_three.queue_.length ∧
    Next.run none ⟨next_three.queue_⟩
        (([⟨0, 0⟩, ⟨7, 9⟩, ⟨0, 0⟩] : List CaptureRange).map Next.Op.capture) =
      some (next_three.queue_.map
        (fun d => (State.PRIMED, ⟨get_stamp d, get_stamp d⟩, [d])), ⟨[]⟩) ∧
    (∀ range : CaptureRange,
      Next.capture_driver_impl (⟨[]⟩ : Next Nat) range =
        some (State.RETRY, range, [], ⟨[]⟩)) ∧
    next_three.queue_.map (fun d => (State.PRIMED, (⟨get_stamp d, get_stamp d⟩ : CaptureRange),
        [d])) =
      [(State.PRIMED, ⟨1, 1⟩, [⟨1, 0⟩]), (State.PRIMED, ⟨2, 2⟩, [⟨2, 1⟩]),
        (State.PRIMED, ⟨3, 3⟩, [⟨3, 2⟩])] :=
  ⟨by decide,
    (C11_next_captures_in_order none next_three.queue_ [⟨0, 0⟩, ⟨7, 9⟩, ⟨0, 0⟩]
      (by decide)).1,
    (C11_next_captures_in_order none next_three.queue_ [⟨0, 0⟩, ⟨7, 9⟩, ⟨0, 0⟩]
      (by decide)).2,
    by decide⟩

/-- C12, as stated, fails: push stamp 5, capture, push stamp 3, capture. Both pushes are
accepted (the queue is empty when 3 arrives, so 3 is not before the newest stamp in the
queue), both captures are PRIMED, all pushed stamps are distinct, and the lower stamps
5, 3 decrease. -/
theorem C12_next_lower_stamps_counterexample :
    Next.run none (⟨[]⟩ : Next Nat) next_calls_backwards =
      some ([(State.PRIMED, ⟨5, 5⟩, [⟨5, 0⟩]), (State.PRIMED, ⟨3, 3⟩, [⟨3, 1⟩])], ⟨[]⟩) ∧
    Next.primed_lower_stamps
      [(State.PRIMED, ⟨5, 5⟩, [(⟨5, 0⟩ : Dispatch Nat)]),
        (State.PRIMED, ⟨3, 3⟩, [⟨3, 1⟩])] = [5, 3] ∧
    (Next.pushed_stamps next_calls_backwards).Nodup ∧
    ¬ ([5, 3] : List Int).Pairwise (fun a b => a ≤ b) :=
  ⟨rfl, rfl, by decide, by decide⟩

/-- C12, amended. For every sequence of pushes, `Next` captures and `Next` aborts, in
any interleaving, started from the empty queue, in which the pushed stamps never
decrease over the whole sequence: every call goes through, the lower stamps of the
PRIMED captures are picked in order from the pushed stamps, so they never decrease,
and they strictly increase when all pushed stamps are distinct. -/
theorem C12_next_lower_stamps_monotone {α : Type} (capacity : Option Nat)
    (ops : List (Next.Op α))
    (hp : (Next.pushed_stamps ops).Pairwise (fun a b => a ≤ b)) :
    ∃ results self1, Next.run capacity (⟨[]⟩ : Next α) ops = some (results, self1) ∧
      (Next.primed_lower_stamps results).Sublist (Next.pushed_stamps ops) ∧
      (Next.primed_lower_stamps results).Pairwise (fun a b => a ≤ b) ∧
      ((Next.pushed_stamps ops).Nodup →
        (Next.primed_lower_stamps results).Pairwise (fun a b => a < b)) := by
  obtain ⟨results, self1, hrun, hsub⟩ :=
    Next.run_lower_stamps_sublist capacity ops [] (by simpa using hp)
  have hsub1 : (Next.primed_lower_stamps results).Sublist (Next.pushed_stamps ops) := by
    simpa using hsub
  refine ⟨results, self1, hrun, hsub1, hp.sublist hsub1, ?_⟩
  intro hnd
  have hlt : (Next.pushed_stamps ops).Pairwise (fun a b => a < b) := by
    have := hp.and hnd
    exact this.imp (fun h => lt_of_le_of_ne h.1 h.2)
  exact hlt.sublist hsub1

/-- Witness for C12 (amended): pushes of stamps 1, 2, 4 in order with captures and an
abort in between. -/
theorem C12_next_lower_stamps_monotone_witness :
    (Next.pushed_stamps next_calls_ordered).Pairwise (fun a b => a ≤ b) ∧
    (Next.run none (⟨[]⟩ : Next Nat) next_calls_ordered).map
      (fun r => Next.primed_lower_stamps r.1) = some [1, 2, 4] ∧
    ∃ results self1,
      Next.run none (⟨[]⟩ : Next Nat) next_calls_ordered = some (results, self1) ∧
      (Next.primed_lower_stamps results).Sublist (Next.pushed_stamps next_calls_ordered) ∧
      (Next.primed_lower_stamps results).Pairwise (fun a b => a ≤ b) ∧
      ((Next.pushed_stamps next_calls_ordered).Nodup →
        (Next.primed_lower_stamps results).Pairwise (fun a b => a < b)) :=
  ⟨by decide, by decide, C12_next_lower_stamps_monotone none next_calls_ordered (by decide)⟩

/-! ## Eviction from ordered queues -/

/-- On a queue with non-decreasing stamps, the dispatches older than `t` are the ones
at the front. -/
theorem filter_lt_eq_takeWhile {α : Type} (t : Int) (queue : List (Dispatch α))
    (hs : NonDecreasing queue) :
    queue.filter (fun d => decide (get_stamp d < t)) =
      queue.takeWhile (fun d => decide (get_stamp d < t)) := by
  induction queue with
  | nil => rfl
  | cons x xs ih =>
    have hxs := List.pairwise_cons.mp hs
    by_cases hx : get_stamp x < t
    · simp [List.filter_cons, List.takeWhile_cons, hx, ih hxs.2]
    · have hall : ∀ y ∈ x :: xs, ¬ (decide (get_stamp y < t) = true) := by
        intro y hy
        have : get_stamp x ≤ get_stamp y := by
          rcases List.mem_cons.mp hy with rfl | hy
          · exact le_refl _
          · exact hxs.1 y hy
        simp only [decide_eq_true_eq, not_lt]
        omega
      rw [List.filter_eq_nil_iff.mpr hall]
      simp [List.takeWhile_cons, hx]

/-- On a queue with non-decreasing stamps, `remove_before` keeps a suffix. -/
theorem remove_before_suffix {α : Type} (t : Int) (queue : List (Dispatch α))
    (hs : NonDecreasing queue) :
    DispatchQueue.remove_before t queue <:+ queue := by
  rw [remove_before_eq_dropWhile t queue hs]
  exact List.dropWhile_suffix _

/-- The dispatches older than `t` followed by what `remove_before` keeps make up the
queue again, when its stamps never decrease. -/
theorem filter_lt_append_remove_before {α : Type} (t : Int) (queue : List (Dispatch α))
    (hs : NonDecreasing queue) :
    queue.filter (fun d => decide (get_stamp d < t)) ++
      DispatchQueue.remove_before t queue = queue := by
  rw [remove_before_eq_dropWhile t queue hs, filter_lt_eq_takeWhile t queue hs]
  exact List.takeWhile_append_dropWhile _ _

theorem remove_before_eq_filter_le {α : Type} (t : Int) (queue : List (Dispatch α)) :
    DispatchQueue.remove_before t queue =
      queue.filter (fun d => decide (t ≤ get_stamp d)) := by
  simp only [DispatchQueue.remove_before]
  apply List.filter_congr
  intro x _
  by_cases hx : get_stamp x < t
  · have : ¬ t ≤ get_stamp x := by omega
    simp [hx, this]
  · have : t ≤ get_stamp x := by omega
    simp [hx, this]

theorem remove_before_not_lt {α : Type} (t : Int) (queue : List (Dispatch α)) :
    ∀ d ∈ DispatchQueue.remove_before t queue, ¬ get_stamp d < t := by
  intro d hd
  simp only [DispatchQueue.remove_before, List.mem_filter, Bool.not_eq_true',
    decide_eq_false_iff_not] at hd
  exact hd.2

/-- The three outcomes of the two `Ranged` capture variants. -/
theorem Ranged.capture_cases {α : Type} (self : Ranged α) (range : CaptureRange) :
    (self.capture_follower_impl range = some (State.RETRY, [], self) ∧
      self.dry_capture_follower_impl range = some (State.RETRY, self)) ∨
    (self.capture_follower_impl range = some (State.ABORT, [], self) ∧
      self.dry_capture_follower_impl range = some (State.ABORT, self)) ∨
    (∃ out self1, self.capture_follower_impl range = some (State.PRIMED, out, self1) ∧
      self.dry_capture_follower_impl range = some (State.PRIMED, self1)) := by
  simp only [Ranged.capture_follower_impl, Ranged.dry_capture_follower_impl]
  by_cases hE : self.queue_.isEmpty = true
  · exact Or.inl ⟨by simp [hE], by simp [hE]⟩
  by_cases haf : self.find_after_first range = 0
  · exact Or.inr (Or.inl ⟨by simp [hE, haf], by simp [hE, haf]⟩)
  by_cases hbl : self.find_before_last range (self.find_after_first range) =
      self.queue_.length
  · exact Or.inl ⟨by simp [hE, haf, hbl], by simp [hE, haf, hbl]⟩
  obtain ⟨first, hf⟩ := Ranged.deref_prev self range haf
  exact Or.inr (Or.inr ⟨_, _, by simp only [hE, haf, hbl, hf]; rfl,
    by simp only [hE, haf, hbl, hf]; rfl⟩)

/-! ## Properties of aborts, of captures that are not PRIMED, and of `AnyBefore` -/

/-- C13. For a queue with non-decreasing stamps (the empty one included) and every
stamp `t`, `Next` abort always returns, and leaves exactly the dispatches with stamp
`≥ t` in their original order: the queue is the removed dispatches, all with stamp
`< t`, followed by the kept ones, and no kept dispatch has stamp `< t`. -/
theorem C13_next_abort {α : Type} (self : Next α) (t_abort : Int)
    (hs : NonDecreasing self.queue_) :
    (self.abort_driver_impl t_abort).queue_ =
      self.queue_.filter (fun d => decide (t_abort ≤ get_stamp d)) ∧
    (∀ d ∈ (self.abort_driver_impl t_abort).queue_, ¬ get_stamp d < t_abort) ∧
    (∃ removed, self.queue_ = removed ++ (self.abort_driver_impl t_abort).queue_ ∧
      ∀ d ∈ removed, get_stamp d < t_abort) := by
  refine ⟨remove_before_eq_filter_le _ _, remove_before_not_lt _ _, ?_⟩
  refine ⟨self.queue_.filter (fun d => decide (get_stamp d < t_abort)),
    (filter_lt_append_remove_before t_abort self.queue_ hs).symm, ?_⟩
  intro d hd
  simp only [List.mem_filter, decide_eq_true_eq] at hd
  exact hd.2

/-- Witness for C13: stamps 1, 2, 3 and abort stamp 2 leave stamps 2, 3. -/
theorem C13_next_abort_witness :
    NonDecreasing next_three.queue_ ∧
    (next_three.abort_driver_impl 2).queue_ = [⟨2, 1⟩, ⟨3, 2⟩] ∧
    ((next_three.abort_driver_impl 2).queue_ =
      next_three.queue_.filter (fun d => decide ((2 : Int) ≤ get_stamp d)) ∧
    (∀ d ∈ (next_three.abort_driver_impl 2).queue_, ¬ get_stamp d < 2) ∧
    (∃ removed, next_three.queue_ = removed ++ (next_three.abort_driver_impl 2).queue_ ∧
      ∀ d ∈ removed, get_stamp d < 2)) :=
  ⟨by decide, by decide, C13_next_abort next_three 2 (by decide)⟩

/-- C14. Whenever `Ranged` capture returns RETRY or ABORT, nothing is written to the
output and the follower, hence its queue, is exactly as before; whenever `Ranged` dry
capture returns RETRY or ABORT, the follower is exactly as before. This holds for
every queue, delay and range. -/
theorem C14_ranged_not_primed_unchanged {α : Type} (self : Ranged α)
    (range : CaptureRange) (state : State)
    (hstate : state = State.RETRY ∨ state = State.ABORT) :
    ((self.capture_follower_impl range).map Prod.fst = some state →
      self.capture_follower_impl range = some (state, [], self)) ∧
    ((self.dry_capture_follower_impl range).map Prod.fst = some state →
      self.dry_capture_follower_impl range = some (state, self)) := by
  rcases Ranged.capture_cases self range with ⟨hc, hd⟩ | ⟨hc, hd⟩ | ⟨out, self1, hc, hd⟩
  · rw [hc, hd]
    simp only [Option.map_some', Option.some.injEq]
    exact ⟨fun h => by rw [← h], fun h => by rw [← h]⟩
  · rw [hc, hd]
    simp only [Option.map_some', Option.some.injEq]
    exact ⟨fun h => by rw [← h], fun h => by rw [← h]⟩
  · rw [hc, hd]
    simp only [Option.map_some', Option.some.injEq]
    have hne : State.PRIMED ≠ state := by
      rcases hstate with h | h <;> rw [h] <;> decide
    exact ⟨fun h => absurd h hne, fun h => absurd h hne⟩

/-- Witness for C14: no delay, range `(5, 9)`, queue stamps 6, 8; the capture aborts and
leaves the follower as it was. -/
theorem C14_ranged_not_primed_unchanged_witness :
    (State.ABORT = State.RETRY ∨ State.ABORT = State.ABORT) ∧
    (ranged_late.capture_follower_impl ⟨5, 9⟩).map Prod.fst = some State.ABORT ∧
    (ranged_late.dry_capture_follower_impl ⟨5, 9⟩).map Prod.fst = some State.ABORT ∧
    (((ranged_late.capture_follower_impl ⟨5, 9⟩).map Prod.fst = some State.ABORT →
      ranged_late.capture_follower_impl ⟨5, 9⟩ = some (State.ABORT, [], ranged_late)) ∧
    ((ranged_late.dry_capture_follower_impl ⟨5, 9⟩).map Prod.fst = some State.ABORT →
      ranged_late.dry_capture_follower_impl ⟨5, 9⟩ = some (State.ABORT, ranged_late))) :=
  ⟨by decide, by decide, by decide,
    C14_ranged_not_primed_unchanged ranged_late ⟨5, 9⟩ State.ABORT (by decide)⟩

/-- C15. For a queue with non-decreasing stamps (the empty one included), every delay
and every range, `AnyBefore` capture returns PRIMED, emits in queue order exactly the
dispatches with stamp `< upper_stamp - delay`, and leaves exactly the remaining
dispatches: emitted followed by kept is the original queue, the kept ones are those
with stamp `≥ upper_stamp - delay`, so none of them has stamp `< upper_stamp - delay`;
the delay is unchanged. -/
theorem C15_any_before_capture {α : Type} (self : AnyBefore α) (range : CaptureRange)
    (hs : NonDecreasing self.queue_) :
    (self.capture_follower_impl range).1 = State.PRIMED ∧
    (self.capture_follower_impl range).2.1 =
      self.queue_.filter (fun d => decide (get_stamp d < range.upper_stamp - self.delay_)) ∧
    (self.capture_follower_impl range).2.2.queue_ =
      self.queue_.filter (fun d => decide (range.upper_stamp - self.delay_ ≤ get_stamp d)) ∧
    (self.capture_follower_impl range).2.1 ++ (self.capture_follower_impl range).2.2.queue_ =
      self.queue_ ∧
    (∀ d ∈ (self.capture_follower_impl range).2.2.queue_,
      ¬ get_stamp d < range.upper_stamp - self.delay_) ∧
    (self.capture_follower_impl range).2.2.delay_ = self.delay_ :=
  ⟨rfl, rfl, remove_before_eq_filter_le _ _,
    filter_lt_append_remove_before _ _ hs, remove_before_not_lt _ _, rfl⟩

/-- Witness for C15: delay 2, range `(10, 10)`, queue stamps 3, 6, 9, 12; stamps 3, 6 are
emitted and 9, 12 remain. -/
theorem C15_any_before_capture_witness :
    NonDecreasing any_before_two.queue_ ∧
    any_before_two.capture_follower_impl ⟨10, 10⟩ =
      (State.PRIMED, [⟨3, 0⟩, ⟨6, 1⟩], ⟨2, [⟨9, 2⟩, ⟨12, 3⟩]⟩) ∧
    ((any_before_two.capture_follower_impl ⟨10, 10⟩).1 = State.PRIMED ∧
    (any_before_two.capture_follower_impl ⟨10, 10⟩).2.1 =
      any_before_two.queue_.filter (fun d =>
        decide (get_stamp d < (⟨10, 10⟩ : CaptureRange).upper_stamp - any_before_two.delay_)) ∧
    (any_before_two.capture_follower_impl ⟨10, 10⟩).2.2.queue_ =
      any_before_two.queue_.filter (fun d =>
        decide ((⟨10, 10⟩ : CaptureRange).upper_stamp - any_before_two.delay_ ≤ get_stamp d)) ∧
    (any_before_two.capture_follower_impl ⟨10, 10⟩).2.1 ++
        (any_before_two.capture_follower_impl ⟨10, 10⟩).2.2.queue_ =
      any_before_two.queue_ ∧
    (∀ d ∈ (any_before_two.capture_follower_impl ⟨10, 10⟩).2.2.queue_,
      ¬ get_stamp d < (⟨10, 10⟩ : CaptureRange).upper_stamp - any_before_two.delay_) ∧
    (any_before_two.capture_follower_impl ⟨10, 10⟩).2.2.delay_ = any_before_two.delay_) :=
  ⟨by decide, by decide, C15_any_before_capture any_before_two ⟨10, 10⟩ (by decide)⟩

/-! ## Properties of `Throttled` -/

/-- What the local loop of `Throttled` drops and where it stops. -/
theorem Throttled.drop_early_spec {α : Type} (period : Int) (previous : Option Int)
    (queue : List (Dispatch α)) :
    ∃ skipped, queue = skipped ++ Throttled.drop_early period previous queue ∧
      (∀ d ∈ skipped, ∃ t_previous, previous = some t_previous ∧
        get_stamp d - t_previous < period) ∧
      (∀ d rest, Throttled.drop_early period previous queue = d :: rest →
        ∀ t_previous, previous = some t_previous → period ≤ get_stamp d - t_previous) := by
  induction queue with
  | nil => exact ⟨[], rfl, by simp, by simp [Throttled.drop_early]⟩
  | cons x xs ih =>
    cases previous with
    | none =>
      refine ⟨[], rfl, by simp, ?_⟩
      intro d rest _ t_previous ht
      simp at ht
    | some tp =>
      by_cases hx : get_stamp x - tp < period
      · obtain ⟨skipped, hq, hsk, hhead⟩ := ih
        have hd : Throttled.drop_early period (some tp) (x :: xs) =
            Throttled.drop_early period (some tp) xs := by
          simp [Throttled.drop_early, hx]
        refine ⟨x :: skipped, ?_, ?_, ?_⟩
        · rw [hd, List.cons_append, ← hq]
        · intro d hd1
          rcases List.mem_cons.mp hd1 with rfl | hd1
          · exact ⟨tp, rfl, hx⟩
          · exact hsk d hd1
        · intro d rest hdr
          rw [hd] at hdr
          exact hhead d rest hdr
      · have hd : Throttled.drop_early period (some tp) (x :: xs) = x :: xs := by
          simp [Throttled.drop_early, hx]
        refine ⟨[], by rw [hd]; rfl, by simp, ?_⟩
        intro d rest hdr t_previous ht
        rw [hd] at hdr
        simp only [List.cons.injEq] at hdr
        simp only [Option.some.injEq] at ht
        rw [← hdr.1, ← ht]
        omega

/-- One `Throttled` capture cycle, by what the local loop leaves in the queue. -/
theorem Throttled.capture_of_drop_early {α : Type} (self : Throttled α)
    (range : CaptureRange) :
    (Throttled.drop_early self.throttle_period_ self.previous_stamp_ self.queue_ = [] →
      self.capture_driver_impl range =
        some (State.RETRY, range, [], { self with queue_ := [] })) ∧
    (∀ d rest,
      Throttled.drop_early self.throttle_period_ self.previous_stamp_ self.queue_ =
        d :: rest →
      self.capture_driver_impl range =
        some (State.PRIMED, ⟨get_stamp d, get_stamp d⟩, [d],
          { self with queue_ := rest, previous_stamp_ := some (get_stamp d) })) := by
  constructor
  · intro h
    simp [Throttled.capture_driver_impl, Throttled.dry_capture_driver_impl, h]
  · intro d rest h
    simp [Throttled.capture_driver_impl, Throttled.dry_capture_driver_impl, h,
      DispatchQueue.pop]

/-- Along a run of pushes and capture cycles, each emitted stamp is at least one
period after the stamp emitted before it, the first one counted from the stamp
remembered at the start, if any. -/
theorem Throttled.run_spacing {α : Type} (capacity : Option Nat)
    (ops : List (Throttled.Op α)) :
    ∀ (self : Throttled α) (emitted : List (Dispatch α)) (self1 : Throttled α),
      Throttled.run capacity self ops = some (emitted, self1) →
      List.Chain' (fun a b => self.throttle_period_ ≤ b - a)
        (self.previous_stamp_.toList ++ emitted.map get_stamp) := by
  induction ops with
  | nil =>
    intro self emitted self1 h
    simp only [Throttled.run, Option.some.injEq, Prod.mk.injEq] at h
    rw [← h.1]
    cases self.previous_stamp_ <;> simp
  | cons op ops ih =>
    intro self emitted self1 h
    cases op with
    | push d =>
      simp only [Throttled.run] at h
      cases hpush : DispatchQueue.push capacity d self.queue_ with
      | none => simp [hpush] at h
      | some queue1 =>
        rw [hpush] at h
        exact ih { self with queue_ := queue1 } emitted self1 h
    | capture range =>
      obtain ⟨hnil, hcons⟩ := Throttled.capture_of_drop_early self range
      obtain ⟨skipped, -, -, hhead⟩ :=
        Throttled.drop_early_spec self.throttle_period_ self.previous_stamp_ self.queue_
      simp only [Throttled.run] at h
      cases hk : Throttled.drop_early self.throttle_period_ self.previous_stamp_
          self.queue_ with
      | nil =>
        rw [hnil hk] at h
        simp only at h
        cases hrun : Throttled.run capacity { self with queue_ := [] } ops with
        | none => simp [hrun] at h
        | some r =>
          obtain ⟨emitted1, self2⟩ := r
          rw [hrun] at h
          simp only [List.nil_append, Option.some.injEq, Prod.mk.injEq] at h
          rw [← h.1]
          exact ih { self with queue_ := [] } emitted1 self2 hrun
      | cons d rest =>
        rw [hcons d rest hk] at h
        simp only at h
        cases hrun : Throttled.run capacity
            { self with queue_ := rest, previous_stamp_ := some (get_stamp d) } ops with
        | none => simp [hrun] at h
        | some r =>
          obtain ⟨emitted1, self2⟩ := r
          rw [hrun] at h
          simp only [Option.some.injEq, Prod.mk.injEq] at h
          rw [← h.1]
          have hih := ih { self with queue_ := rest, previous_stamp_ := some (get_stamp d) }
            emitted1 self2 hrun
          simp only [Option.toList, List.singleton_append] at hih
          cases hprev : self.previous_stamp_ with
          | none =>
            simpa using hih
          | some tp =>
            simp only [Option.toList, List.singleton_append, List.map_append, List.map_cons,
              List.map_nil, List.cons_append, List.nil_append]
            exact List.Chain'.cons (hhead d rest hk tp hprev) hih

/-- C16. In the model of `Throttled(p)`: along every sequence of accepted pushes and
capture cycles, each emitted stamp is at least `p` after the previously emitted one;
and in every cycle the dispatches dropped from the front are those arriving sooner
than `p` after the previous emission, an emptied queue gives RETRY with nothing
emitted, and otherwise the cycle is PRIMED, emits the first remaining dispatch, sets
`lower_stamp = upper_stamp =` its stamp, removes it from the queue and remembers its
stamp, which is at least `p` after the previous emission. -/
theorem C16_throttled_spacing {α : Type} (capacity : Option Nat) (self : Throttled α)
    (ops : List (Throttled.Op α)) (emitted : List (Dispatch α)) (self1 : Throttled α)
    (h : Throttled.run capacity self ops = some (emitted, self1)) :
    List.Chain' (fun a b => self.throttle_period_ ≤ b - a)
      (self.previous_stamp_.toList ++ emitted.map get_stamp) ∧
    (∀ (current : Throttled α) (range : CaptureRange),
      ∃ skipped kept, current.queue_ = skipped ++ kept ∧
        (∀ d ∈ skipped, ∃ t_previous, current.previous_stamp_ = some t_previous ∧
          get_stamp d - t_previous < current.throttle_period_) ∧
        (kept = [] → current.capture_driver_impl range =
          some (State.RETRY, range, [], { current with queue_ := [] })) ∧
        (∀ d rest, kept = d :: rest →
          (∀ t_previous, current.previous_stamp_ = some t_previous →
            current.throttle_period_ ≤ get_stamp d - t_previous) ∧
          current.capture_driver_impl range =
            some (State.PRIMED, ⟨get_stamp d, get_stamp d⟩, [d],
              { current with queue_ := rest, previous_stamp_ := some (get_stamp d) }))) := by
  refine ⟨Throttled.run_spacing capacity ops self emitted self1 h, ?_⟩
  intro current range
  obtain ⟨skipped, hq, hsk, hhead⟩ := Throttled.drop_early_spec
    current.throttle_period_ current.previous_stamp_ current.queue_
  obtain ⟨hnil, hcons⟩ := Throttled.capture_of_drop_early current range
  exact ⟨skipped, _, hq, hsk, hnil, fun d rest hk => ⟨hhead d rest hk, hcons d rest hk⟩⟩

/-- Witness for C16: period 5, pushes of stamps 1, 2, 7, 8, 14 and four cycles emit the
dispatches stamped 1, 7, 14. -/
theorem C16_throttled_spacing_witness :
    Throttled.run none throttled_five throttled_calls =
      some ([⟨1, 0⟩, ⟨7, 2⟩, ⟨14, 4⟩], ⟨5, some 14, []⟩) ∧
    List.Chain' (fun a b => throttled_five.throttle_period_ ≤ b - a)
      (throttled_five.previous_stamp_.toList ++
        ([⟨1, 0⟩, ⟨7, 2⟩, ⟨14, 4⟩] : List (Dispatch Nat)).map get_stamp) :=
  ⟨rfl, (C16_throttled_spacing none throttled_five throttled_calls
    [⟨1, 0⟩, ⟨7, 2⟩, ⟨14, 4⟩] ⟨5, some 14, []⟩ rfl).1⟩

/-! ## `Next` driving `Ranged` -/

/-- In a queue `A ++ a :: (C ++ b :: D)` whose parts lie below `lo`, within `[lo, hi]`
and above `hi` as in a PRIMED `Ranged` capture, `a` is the last dispatch below `lo`,
`b` the first above `hi`, and `C` the dispatches within `[lo, hi]`. -/
theorem Ranged.shape_filters {α : Type} (A C D : List (Dispatch α)) (a b : Dispatch α)
    (lo hi : Int) (hlh : lo ≤ hi)
    (hA : ∀ x ∈ A, get_stamp x < lo) (ha : get_stamp a < lo)
    (hCl : ∀ x ∈ C, lo ≤ get_stamp x) (hC : ∀ x ∈ C, get_stamp x ≤ hi)
    (hb : hi < get_stamp b) (hD : ∀ x ∈ D, hi < get_stamp x) :
    ((A ++ a :: (C ++ b :: D)).filter (fun d => decide (get_stamp d < lo))).getLast? =
      some a ∧
    (A ++ a :: (C ++ b :: D)).find? (fun d => decide (hi < get_stamp d)) = some b ∧
    (A ++ a :: (C ++ b :: D)).filter
      (fun d => decide (lo ≤ get_stamp d ∧ get_stamp d ≤ hi)) = C := by
  refine ⟨?_, ?_, ?_⟩
  · have h1 : A.filter (fun d => decide (get_stamp d < lo)) = A :=
      List.filter_eq_self.mpr (fun x hx => decide_eq_true (hA x hx))
    have h2 : (C ++ b :: D).filter (fun d => decide (get_stamp d < lo)) = [] := by
      apply List.filter_eq_nil_iff.mpr
      intro x hx
      simp only [List.mem_append, List.mem_cons] at hx
      simp only [decide_eq_true_eq, not_lt]
      rcases hx with hx | rfl | hx
      · exact hCl x hx
      · omega
      · have := hD x hx
        omega
    simp only [List.filter_append, List.filter_cons, h1, decide_eq_true ha, if_true]
    simp only [List.filter_append, List.filter_cons] at h2
    rw [h2]
    simp
  · have hnA : ∀ x ∈ A, ¬ (decide (hi < get_stamp x) = true) := by
      intro x hx
      have := hA x hx
      simp only [decide_eq_true_eq, not_lt]
      omega
    have hna : decide (hi < get_stamp a) = false := by
      simp only [decide_eq_false_iff_not, not_lt]
      omega
    have hnC : ∀ x ∈ C, ¬ (decide (hi < get_stamp x) = true) := by
      intro x hx
      have := hC x hx
      simp only [decide_eq_true_eq, not_lt]
      exact this
    rw [List.find?_append, List.find?_eq_none.mpr hnA]
    simp only [Option.none_or, List.find?_cons, hna]
    rw [List.find?_append, List.find?_eq_none.mpr hnC]
    simp only [Option.none_or, List.find?_cons, decide_eq_true hb]
  · have hfA : A.filter (fun d => decide (lo ≤ get_stamp d ∧ get_stamp d ≤ hi)) = [] := by
      apply List.filter_eq_nil_iff.mpr
      intro x hx
      have := hA x hx
      simp only [decide_eq_true_eq, not_and, not_le]
      omega
    have hfa : decide (lo ≤ get_stamp a ∧ get_stamp a ≤ hi) = false := by
      simp only [decide_eq_false_iff_not, not_and, not_le]
      omega
    have hfC : C.filter (fun d => decide (lo ≤ get_stamp d ∧ get_stamp d ≤ hi)) = C :=
      List.filter_eq_self.mpr (fun x hx => decide_eq_true ⟨hCl x hx, hC x hx⟩)
    have hfb : decide (lo ≤ get_stamp b ∧ get_stamp b ≤ hi) = false := by
      simp only [decide_eq_false_iff_not, not_and, not_le]
      omega
    have hfD : D.filter (fun d => decide (lo ≤ get_stamp d ∧ get_stamp d ≤ hi)) = [] := by
      apply List.filter_eq_nil_iff.mpr
      intro x hx
      have := hD x hx
      simp only [decide_eq_true_eq, not_and, not_le]
      omega
    simp only [List.filter_append, List.filter_cons, hfA, hfa, hfC, hfb, hfD]
    simp

/-- C18. `Next` driving `Ranged(delay)`: on a non-empty driver queue `Next` capture is
PRIMED with a range `(t, t)`, and for a follower queue with non-decreasing stamps,
whenever `Ranged` capture on that range is PRIMED it emits exactly the newest follower
dispatch with stamp `< t - delay`, then every follower dispatch with stamp
`= t - delay`, then the oldest follower dispatch with stamp `> t - delay`; so exactly
two dispatches when no follower stamp equals `t - delay`. -/
theorem C18_next_ranged_composition {α β : Type} (driver : Next β) (follower : Ranged α)
    (range0 : CaptureRange)
    (hne : driver.queue_ ≠ [])
    (hs : NonDecreasing follower.queue_) :
    ∃ t out0 driver1,
      driver.capture_driver_impl range0 = some (State.PRIMED, ⟨t, t⟩, out0, driver1) ∧
      ∀ out follower1,
        follower.capture_follower_impl ⟨t, t⟩ = some (State.PRIMED, out, follower1) →
        ∃ a b,
          (follower.queue_.filter
            (fun d => decide (get_stamp d < t - follower.delay_))).getLast? = some a ∧
          follower.queue_.find?
            (fun d => decide (t - follower.delay_ < get_stamp d)) = some b ∧
          out = a :: (follower.queue_.filter
            (fun d => decide (get_stamp d = t - follower.delay_)) ++ [b]) ∧
          ((∀ x ∈ follower.queue_, get_stamp x ≠ t - follower.delay_) → out = [a, b]) := by
  obtain ⟨dq⟩ := driver
  cases dq with
  | nil => exact absurd rfl hne
  | cons d rest =>
    refine ⟨get_stamp d, [d], ⟨rest⟩, rfl, ?_⟩
    intro out follower1 h
    obtain ⟨A, a, C, b, D, hq, hA, ha, hhead, hC, hb, hout, -, -, -⟩ :=
      Ranged.capture_primed_shape follower ⟨get_stamp d, get_stamp d⟩ (le_refl _)
        out follower1 h
    dsimp only at hA ha hhead hC hb
    rw [hq] at hs
    obtain ⟨hCl, -, -, hDu⟩ := Ranged.shape_sorted A C D a b _ _ hs hhead hb
    obtain ⟨h1, h2, h3⟩ := Ranged.shape_filters A C D a b
      (get_stamp d - follower.delay_) (get_stamp d - follower.delay_) (le_refl _)
      hA ha hCl hC hb hDu
    have h4 : follower.queue_.filter
        (fun x => decide (get_stamp x = get_stamp d - follower.delay_)) = C := by
      rw [← h3, hq]
      apply List.filter_congr
      intro x _
      apply decide_eq_decide.mpr
      constructor <;> intro hx <;> omega
    refine ⟨a, b, by rw [hq]; exact h1, by rw [hq]; exact h2, by rw [h4]; exact hout, ?_⟩
    intro hnone
    have hCnil : C = [] := by
      rw [← h4]
      apply List.filter_eq_nil_iff.mpr
      intro x hx
      simp only [decide_eq_true_eq]
      exact hnone x hx
    rw [hout, hCnil]
    rfl

/-- Witness for C18: driver stamp 5, follower stamps 3, 4, 6, 7, no delay; the follower
emits the dispatches stamped 4 and 6. -/
theorem C18_next_ranged_composition_witness :
    (⟨stamped [5]⟩ : Next Nat).queue_ ≠ [] ∧ NonDecreasing ranged_follower.queue_ ∧
    Next.capture_driver_impl (⟨stamped [5]⟩ : Next Nat) ⟨0, 0⟩ =
      some (State.PRIMED, ⟨5, 5⟩, [⟨5, 0⟩], ⟨[]⟩) ∧
    ranged_follower.capture_follower_impl ⟨5, 5⟩ =
      some (State.PRIMED, [⟨4, 1⟩, ⟨6, 2⟩], ⟨0, [⟨4, 1⟩, ⟨6, 2⟩, ⟨7, 3⟩]⟩) ∧
    ∃ t out0 driver1,
      Next.capture_driver_impl (⟨stamped [5]⟩ : Next Nat) ⟨0, 0⟩ =
        some (State.PRIMED, ⟨t, t⟩, out0, driver1) ∧
      ∀ out follower1,
        ranged_follower.capture_follower_impl ⟨t, t⟩ =
          some (State.PRIMED, out, follower1) →
        ∃ a b,
          (ranged_follower.queue_.filter
            (fun d => decide (get_stamp d < t - ranged_follower.delay_))).getLast? = some a ∧
          ranged_follower.queue_.find?
            (fun d => decide (t - ranged_follower.delay_ < get_stamp d)) = some b ∧
          out = a :: (ranged_follower.queue_.filter
            (fun d => decide (get_stamp d = t - ranged_follower.delay_)) ++ [b]) ∧
          ((∀ x ∈ ranged_follower.queue_, get_stamp x ≠ t - ranged_follower.delay_) →
            out = [a, b]) :=
  ⟨by decide, by decide, by decide, by decide,
    C18_next_ranged_composition ⟨stamped [5]⟩ ranged_follower ⟨0, 0⟩ (by decide) (by decide)⟩

/-! ## Queue order and iterator safety -/

/-- Whatever `Ranged` capture returns, its output is picked in order from the queue,
the delay is kept, and the queue afterwards is the old queue or the result of a
`remove_before` on it. -/
theorem Ranged.capture_out_and_queue {α : Type} (self : Ranged α) (range : CaptureRange)
    (state : State) (out : List (Dispatch α)) (self1 : Ranged α)
    (h : self.capture_follower_impl range = some (state, out, self1)) :
    out.Sublist self.queue_ ∧ self1.delay_ = self.delay_ ∧
      (self1.queue_ = self.queue_ ∨
        ∃ t, self1.queue_ = DispatchQueue.remove_before t self.queue_) := by
  simp only [Ranged.capture_follower_impl] at h
  split at h
  · simp only [Option.some.injEq, Prod.mk.injEq] at h
    obtain ⟨-, ho, hs⟩ := h
    subst ho hs
    exact ⟨List.nil_sublist _, rfl, Or.inl rfl⟩
  split at h
  · simp only [Option.some.injEq, Prod.mk.injEq] at h
    obtain ⟨-, ho, hs⟩ := h
    subst ho hs
    exact ⟨List.nil_sublist _, rfl, Or.inl rfl⟩
  split at h
  · simp only [Option.some.injEq, Prod.mk.injEq] at h
    obtain ⟨-, ho, hs⟩ := h
    subst ho hs
    exact ⟨List.nil_sublist _, rfl, Or.inl rfl⟩
  split at h
  · simp at h
  · rename_i first _
    simp only [Option.some.injEq, Prod.mk.injEq] at h
    obtain ⟨-, ho, hs⟩ := h
    subst ho hs
    refine ⟨?_, rfl, Or.inr ⟨get_stamp first, rfl⟩⟩
    simp only [copy]
    exact (List.take_sublist _ _).trans (List.drop_sublist _ _)

/-- C19. Every operation of `Next` and `Ranged` maps a queue with non-decreasing stamps
to a queue with non-decreasing stamps that is a suffix of the original, and what a
capture emits is in non-decreasing stamp order: `Next` capture, `Next` dry capture
(queue unchanged), `Next` abort, `Ranged` capture and dry capture (same follower
afterwards), `Ranged` abort (queue unchanged), for every delay, range and abort
stamp. -/
theorem C19_queue_order_invariant {α : Type} (queue : List (Dispatch α))
    (hs : NonDecreasing queue) (delay : Int) (range : CaptureRange) (t_abort : Int) :
    (∃ state range1 out driver1,
      Next.capture_driver_impl ⟨queue⟩ range = some (state, range1, out, driver1) ∧
      driver1.queue_ <:+ queue ∧ NonDecreasing driver1.queue_ ∧ NonDecreasing out) ∧
    (∃ state range1,
      Next.dry_capture_driver_impl ⟨queue⟩ range = some (state, range1, ⟨queue⟩)) ∧
    ((Next.abort_driver_impl ⟨queue⟩ t_abort).queue_ <:+ queue ∧
      NonDecreasing (Next.abort_driver_impl ⟨queue⟩ t_abort).queue_) ∧
    (∃ state out follower1,
      Ranged.capture_follower_impl ⟨delay, queue⟩ range = some (state, out, follower1) ∧
      Ranged.dry_capture_follower_impl ⟨delay, queue⟩ range = some (state, follower1) ∧
      follower1.queue_ <:+ queue ∧ NonDecreasing follower1.queue_ ∧ NonDecreasing out) ∧
    (Ranged.abort_follower_impl ⟨delay, queue⟩ t_abort).queue_ = queue := by
  refine ⟨?_, ?_, ?_, ?_, rfl⟩
  · cases queue with
    | nil => exact ⟨State.RETRY, range, [], ⟨[]⟩, rfl, List.suffix_refl _, hs, List.Pairwise.nil⟩
    | cons d rest =>
      exact ⟨State.PRIMED, ⟨get_stamp d, get_stamp d⟩, [d], ⟨rest⟩, rfl,
        List.suffix_cons d rest, (List.pairwise_cons.mp hs).2, List.pairwise_singleton _ _⟩
  · cases queue with
    | nil => exact ⟨State.RETRY, range, rfl⟩
    | cons d rest => exact ⟨State.PRIMED, ⟨get_stamp d, get_stamp d⟩, rfl⟩
  · have hsuf := remove_before_suffix t_abort queue hs
    exact ⟨hsuf, List.Pairwise.sublist hsuf.sublist hs⟩
  · obtain ⟨state, out, follower1, hc, hd⟩ :=
      Ranged.capture_dry_capture ⟨delay, queue⟩ range
    obtain ⟨hout, -, hq⟩ :=
      Ranged.capture_out_and_queue ⟨delay, queue⟩ range state out follower1 hc
    have hsuf : follower1.queue_ <:+ queue := by
      rcases hq with hq | ⟨t, hq⟩
      · rw [hq]
      · rw [hq]
        exact remove_before_suffix t queue hs
    exact ⟨state, out, follower1, hc, hd, hsuf, List.Pairwise.sublist hsuf.sublist hs,
      List.Pairwise.sublist hout hs⟩

/-- Witness for C19: queue stamps 2, 4, 6, 8, 10, no delay, range `(5, 9)`, abort
stamp 5. -/
theorem C19_queue_order_invariant_witness :
    NonDecreasing ranged_bracketed.queue_ ∧
    Ranged.capture_follower_impl ⟨0, ranged_bracketed.queue_⟩ ⟨5, 9⟩ =
      some (State.PRIMED, [⟨4, 1⟩, ⟨6, 2⟩, ⟨8, 3⟩, ⟨10, 4⟩],
        ⟨0, [⟨4, 1⟩, ⟨6, 2⟩, ⟨8, 3⟩, ⟨10, 4⟩]⟩) ∧
    (Next.abort_driver_impl ⟨ranged_bracketed.queue_⟩ 5).queue_ =
      [⟨6, 2⟩, ⟨8, 3⟩, ⟨10, 4⟩] ∧
    ((∃ state range1 out driver1,
      Next.capture_driver_impl ⟨ranged_bracketed.queue_⟩ ⟨5, 9⟩ =
        some (state, range1, out, driver1) ∧
      driver1.queue_ <:+ ranged_bracketed.queue_ ∧ NonDecreasing driver1.queue_ ∧
      NonDecreasing out) ∧
    (∃ state range1,
      Next.dry_capture_driver_impl ⟨ranged_bracketed.queue_⟩ ⟨5, 9⟩ =
        some (state, range1, ⟨ranged_bracketed.queue_⟩)) ∧
    ((Next.abort_driver_impl ⟨ranged_bracketed.queue_⟩ 5).queue_ <:+
        ranged_bracketed.queue_ ∧
      NonDecreasing (Next.abort_driver_impl ⟨ranged_bracketed.queue_⟩ 5).queue_) ∧
    (∃ state out follower1,
      Ranged.capture_follower_impl ⟨0, ranged_bracketed.queue_⟩ ⟨5, 9⟩ =
        some (state, out, follower1) ∧
      Ranged.dry_capture_follower_impl ⟨0, ranged_bracketed.queue_⟩ ⟨5, 9⟩ =
        some (state, follower1) ∧
      follower1.queue_ <:+ ranged_bracketed.queue_ ∧ NonDecreasing follower1.queue_ ∧
      NonDecreasing out) ∧
    (Ranged.abort_follower_impl ⟨0, ranged_bracketed.queue_⟩ 5).queue_ =
      ranged_bracketed.queue_) :=
  ⟨by decide, by decide, by decide,
    C19_queue_order_invariant ranged_bracketed.queue_ (by decide) 0 ⟨5, 9⟩ 5⟩

/-- C20. Iterator safety of `Ranged` for `lower_stamp ≤ upper_stamp`: whenever capture
or dry capture is PRIMED, `after_first` is neither the first position nor the end,
`before_last` is a position of the queue at or after `after_first`, so
`prev(after_first)` and `next(before_last)` stay within the queue bounds,
`prev(after_first)` lies before `next(before_last)`, and the copied run has
`next(before_last) - prev(after_first)`, at least two, dispatches; and when
`after_first` is the end, both variants return RETRY. This holds for every queue. -/
theorem C20_ranged_iterator_safety {α : Type} (self : Ranged α) (range : CaptureRange)
    (hr : range.lower_stamp ≤ range.upper_stamp) :
    (((self.capture_follower_impl range).map Prod.fst = some State.PRIMED ∨
        (self.dry_capture_follower_impl range).map Prod.fst = some State.PRIMED) →
      0 < self.find_after_first range ∧
      self.find_after_first range < self.queue_.length ∧
      self.find_after_first range ≤
        self.find_before_last range (self.find_after_first range) ∧
      self.find_before_last range (self.find_after_first range) < self.queue_.length ∧
      self.find_after_first range - 1 <
        self.find_before_last range (self.find_after_first range) + 1 ∧
      self.find_before_last range (self.find_after_first range) + 1 ≤ self.queue_.length ∧
      ∃ out self1, self.capture_follower_impl range = some (State.PRIMED, out, self1) ∧
        out.length = self.find_before_last range (self.find_after_first range) + 1 -
          (self.find_after_first range - 1) ∧
        2 ≤ out.length) ∧
    (self.find_after_first range = self.queue_.length →
      (self.capture_follower_impl range).map Prod.fst = some State.RETRY ∧
      (self.dry_capture_follower_impl range).map Prod.fst = some State.RETRY) := by
  constructor
  · intro hp
    have hprimed : ∃ out self1,
        self.capture_follower_impl range = some (State.PRIMED, out, self1) := by
      rcases Ranged.capture_cases self range with ⟨hc, hd⟩ | ⟨hc, hd⟩ | ⟨out, self1, hc, -⟩
      · rw [hc, hd] at hp
        simp at hp
      · rw [hc, hd] at hp
        simp at hp
      · exact ⟨out, self1, hc⟩
    obtain ⟨out, self1, hc⟩ := hprimed
    obtain ⟨A, a, C, b, D, hq, -, -, -, -, -, hout, -, haf, hbl⟩ :=
      Ranged.capture_primed_shape self range hr out self1 hc
    have hlen : self.queue_.length = A.length + 1 + C.length + 1 + D.length := by
      rw [hq]
      simp only [List.length_append, List.length_cons]
      omega
    have holen : out.length = C.length + 2 := by
      rw [hout]
      simp
    rw [hbl, haf, hlen]
    refine ⟨by omega, by omega, by omega, by omega, by omega, by omega, out, self1, hc, ?_, ?_⟩
    · rw [holen]
      omega
    · omega
  · intro hend
    have hretry : (self.capture_follower_impl range).map Prod.fst = some State.RETRY := by
      rw [Ranged.capture_state]
      by_cases hE : self.queue_.isEmpty = true
      · simp [hE]
      · have hlen : self.queue_.length ≠ 0 := by
          intro h0
          exact hE (by simpa using List.length_eq_zero.mp h0)
        have haf : ¬ self.find_after_first range = 0 := by omega
        have hbl : self.find_before_last range (self.find_after_first range) =
            self.queue_.length := by
          apply (Ranged.find_before_last_eq_length_iff self range hr).mpr
          intro d hd
          rw [Ranged.find_after_first_eq] at hend
          have := all_false_of_findIdx_eq _ _ hend d hd
          simp only [ge_iff_le, decide_eq_false_iff_not, not_le] at this
          omega
        simp [hE, haf, hbl]
    refine ⟨hretry, ?_⟩
    obtain ⟨s, out, self1, hc, hd⟩ := Ranged.capture_dry_capture self range
    rw [hc] at hretry
    rw [hd]
    simpa using hretry

/-- Witness for C20: no delay, range `(5, 9)`, queue stamps 2, 4, 6, 8, 10;
`after_first` is position 2 and `before_last` is position 4 of 5. -/
theorem C20_ranged_iterator_safety_witness :
    (⟨5, 9⟩ : CaptureRange).lower_stamp ≤ (⟨5, 9⟩ : CaptureRange).upper_stamp ∧
    (ranged_bracketed.capture_follower_impl ⟨5, 9⟩).map Prod.fst = some State.PRIMED ∧
    ranged_bracketed.find_after_first ⟨5, 9⟩ = 2 ∧
    ranged_bracketed.find_before_last ⟨5, 9⟩ (ranged_bracketed.find_after_first ⟨5, 9⟩) = 4 ∧
    0 < ranged_bracketed.find_after_first ⟨5, 9⟩ ∧
    ranged_bracketed.find_after_first ⟨5, 9⟩ < ranged_bracketed.queue_.length :=
  ⟨by decide, by decide, by decide, by decide,
    ((C20_ranged_iterator_safety ranged_bracketed ⟨5, 9⟩ (by decide)).1
      (Or.inl (by decide))).1,
    ((C20_ranged_iterator_safety ranged_bracketed ⟨5, 9⟩ (by decide)).1
      (Or.inl (by decide))).2.1⟩

/-! ## Repeating a `Ranged` capture and extending its queue -/

theorem findIdx_of_split {β : Type} (p : β → Bool) (A : List β) (m : β) (D : List β)
    (hA : ∀ x ∈ A, p x = false) (hm : p m = true) :
    (A ++ m :: D).findIdx p = A.length := by
  induction A with
  | nil => simp [List.findIdx_cons, hm]
  | cons x xs ih =>
    have hx := hA x (List.mem_cons_self x xs)
    have := ih (fun y hy => hA y (List.mem_cons_of_mem x hy))
    simp [List.findIdx_cons, hx, this]

/-- A queue of the shape `A ++ a :: (C ++ b :: D)`, with `A ++ [a]` before the lower
bound, the next dispatch at or after it, `C` up to the upper bound and `b` past it,
is captured PRIMED with output `a :: (C ++ [b])`. -/
theorem Ranged.capture_of_shape {α : Type} (self : Ranged α) (range : CaptureRange)
    (A C D : List (Dispatch α)) (a b : Dispatch α)
    (hq : self.queue_ = A ++ a :: (C ++ b :: D))
    (hA : ∀ x ∈ A, get_stamp x < range.lower_stamp - self.delay_)
    (ha : get_stamp a < range.lower_stamp - self.delay_)
    (hhead : ∀ x, (C ++ [b]).head? = some x → range.lower_stamp - self.delay_ ≤ get_stamp x)
    (hC : ∀ x ∈ C, get_stamp x ≤ range.upper_stamp - self.delay_)
    (hb : range.upper_stamp - self.delay_ < get_stamp b) :
    self.capture_follower_impl range =
      some (State.PRIMED, a :: (C ++ [b]),
        { self with queue_ := DispatchQueue.remove_before (get_stamp a) self.queue_ }) := by
  have hlen : self.queue_.length = A.length + 1 + C.length + 1 + D.length := by
    rw [hq]
    simp only [List.length_append, List.length_cons]
    omega
  have hsplit : ∃ m D1, C ++ b :: D = m :: D1 ∧
      range.lower_stamp - self.delay_ ≤ get_stamp m := by
    cases C with
    | nil => exact ⟨b, D, rfl, hhead b (by simp)⟩
    | cons c cs => exact ⟨c, cs ++ b :: D, rfl, hhead c (by simp)⟩
  obtain ⟨m, D1, hmD, hm⟩ := hsplit
  have haf : self.find_after_first range = A.length + 1 := by
    rw [Ranged.find_after_first_eq, hq, hmD]
    have h1 : A ++ a :: m :: D1 = (A ++ [a]) ++ m :: D1 := by simp
    rw [h1, findIdx_of_split]
    · simp
    · intro x hx
      simp only [List.mem_append, List.mem_singleton] at hx
      simp only [ge_iff_le, decide_eq_false_iff_not, not_le]
      rcases hx with hx | rfl
      · exact hA x hx
      · exact ha
    · simp only [ge_iff_le, decide_eq_true_eq]
      exact hm
  have hdrop : self.queue_.drop (A.length + 1) = C ++ b :: D := by
    have h1 : self.queue_ = (A ++ [a]) ++ (C ++ b :: D) := by rw [hq]; simp
    have h2 : A.length + 1 = (A ++ [a]).length := by simp
    rw [h1, h2, List.drop_left]
  have hbl : self.find_before_last range (A.length + 1) = A.length + 1 + C.length := by
    rw [Ranged.find_before_last_eq, if_neg (by omega), hdrop, findIdx_of_split]
    · intro x hx
      have := hC x hx
      simp only [Bool.not_eq_false', decide_eq_true_eq]
      exact this
    · simp only [Bool.not_eq_true', decide_eq_false_iff_not, not_le]
      exact hb
  have hget : self.queue_[A.length]? = some a := by
    rw [hq, List.getElem?_append_right (Nat.le_refl _)]
    simp
  have hcopy : copy self.queue_ A.length (A.length + 1 + C.length + 1) = a :: (C ++ [b]) := by
    simp only [copy]
    rw [hq, List.drop_left]
    have h2 : A.length + 1 + C.length + 1 - A.length = (a :: C).length + 1 := by
      simp only [List.length_cons]; omega
    have h3 : a :: (C ++ b :: D) = (a :: C) ++ b :: D := by simp
    rw [h2, h3, List.take_append]
    simp
  have hE : self.queue_.isEmpty = false := by
    rw [hq]
    cases A <;> rfl
  have hne1 : ¬ (A.length + 1 = 0) := by omega
  have hne2 : ¬ (A.length + 1 + C.length = self.queue_.length) := by omega
  simp only [Ranged.capture_follower_impl, hE, haf, hbl, Bool.false_eq_true, if_false,
    hne1, hne2, Nat.add_sub_cancel, hget, hcopy]

/-- C21. Stability of `Ranged` decisions under late arrivals, for
`lower_stamp ≤ upper_stamp`: if capture returns ABORT on a queue, it returns ABORT on
that queue extended by further dispatches; if it returns PRIMED, it returns PRIMED on
the extended queue with the identical emitted sequence. This holds for every queue and
every extension, ordered or not. -/
theorem C21_ranged_stable_under_arrivals {α : Type} (self : Ranged α)
    (range : CaptureRange) (e : List (Dispatch α))
    (hr : range.lower_stamp ≤ range.upper_stamp) :
    ((self.capture_follower_impl range).map Prod.fst = some State.ABORT →
      (Ranged.capture_follower_impl { self with queue_ := self.queue_ ++ e } range).map
        Prod.fst = some State.ABORT) ∧
    (∀ out self1, self.capture_follower_impl range = some (State.PRIMED, out, self1) →
      ∃ self2,
        Ranged.capture_follower_impl { self with queue_ := self.queue_ ++ e } range =
          some (State.PRIMED, out, self2)) := by
  constructor
  · intro h
    rw [Ranged.capture_state] at h ⊢
    obtain ⟨delay, q⟩ := self
    cases q with
    | nil => simp at h
    | cons d rest =>
      have hz := Ranged.find_after_first_eq_zero_iff delay d rest range
      have hz1 := Ranged.find_after_first_eq_zero_iff delay d (rest ++ e) range
      by_cases hd : range.lower_stamp - delay ≤ get_stamp d
      · have haf := hz1.mpr hd
        simp only [List.cons_append, List.isEmpty_cons, Bool.false_eq_true, if_false]
        rw [if_pos haf]
      · have haf : ¬ Ranged.find_after_first ⟨delay, d :: rest⟩ range = 0 :=
          fun h0 => hd (hz.mp h0)
        simp only [List.isEmpty_cons, Bool.false_eq_true, if_false, haf] at h
        split at h <;> simp at h
  · intro out self1 h
    obtain ⟨A, a, C, b, D, hq, hA, ha, hhead, hC, hb, hout, -, -, -⟩ :=
      Ranged.capture_primed_shape self range hr out self1 h
    have hq1 : (Ranged.mk self.delay_ (self.queue_ ++ e)).queue_ =
        A ++ a :: (C ++ b :: (D ++ e)) := by
      simp [hq]
    have := Ranged.capture_of_shape (Ranged.mk self.delay_ (self.queue_ ++ e)) range
      A C (D ++ e) a b hq1 hA ha hhead hC hb
    rw [hout]
    exact ⟨_, this⟩

/-- Witness for C21: no delay, range `(5, 9)`. Stamps 2, 4, 6, 8, 10 are captured PRIMED
with stamps 4, 6, 8, 10, and so are they after stamps 12, 15 arrive; stamps 6, 8 abort
before and after; stamps 2, 4, 6, 8 alone give RETRY, which the arrival of 10 turns
into PRIMED. -/
theorem C21_ranged_stable_under_arrivals_witness :
    (⟨5, 9⟩ : CaptureRange).lower_stamp ≤ (⟨5, 9⟩ : CaptureRange).upper_stamp ∧
    ranged_bracketed.capture_follower_impl ⟨5, 9⟩ =
      some (State.PRIMED, [⟨4, 1⟩, ⟨6, 2⟩, ⟨8, 3⟩, ⟨10, 4⟩],
        ⟨0, [⟨4, 1⟩, ⟨6, 2⟩, ⟨8, 3⟩, ⟨10, 4⟩]⟩) ∧
    (∃ self2,
      Ranged.capture_follower_impl
          { ranged_bracketed with queue_ := ranged_bracketed.queue_ ++ late_arrivals }
          ⟨5, 9⟩ =
        some (State.PRIMED, [⟨4, 1⟩, ⟨6, 2⟩, ⟨8, 3⟩, ⟨10, 4⟩], self2)) ∧
    (Ranged.capture_follower_impl (⟨0, stamped [2, 4, 6, 8]⟩ : Ranged Nat) ⟨5, 9⟩).map
      Prod.fst = some State.RETRY ∧
    (Ranged.capture_follower_impl (⟨0, stamped [2, 4, 6, 8] ++ [⟨10, 4⟩]⟩ : Ranged Nat)
      ⟨5, 9⟩).map Prod.fst = some State.PRIMED :=
  ⟨by decide, by decide,
    (C21_ranged_stable_under_arrivals ranged_bracketed ⟨5, 9⟩ late_arrivals (by decide)).2
      [⟨4, 1⟩, ⟨6, 2⟩, ⟨8, 3⟩, ⟨10, 4⟩] ⟨0, [⟨4, 1⟩, ⟨6, 2⟩, ⟨8, 3⟩, ⟨10, 4⟩]⟩ (by decide),
    by decide, by decide⟩

/-- C22. Idempotence of `Ranged` capture, for a queue with non-decreasing stamps and
`lower_stamp ≤ upper_stamp`: after a PRIMED capture, capture with the same range on
the resulting follower returns PRIMED, emits the identical sequence and leaves the
follower, hence its queue, unchanged; dry capture on it returns PRIMED and leaves it
unchanged as well. -/
theorem C22_ranged_capture_idempotent {α : Type} (self : Ranged α) (range : CaptureRange)
    (hs : NonDecreasing self.queue_)
    (hr : range.lower_stamp ≤ range.upper_stamp)
    (out : List (Dispatch α)) (self1 : Ranged α)
    (h : self.capture_follower_impl range = some (State.PRIMED, out, self1)) :
    self1.capture_follower_impl range = some (State.PRIMED, out, self1) ∧
    self1.dry_capture_follower_impl range = some (State.PRIMED, self1) := by
  obtain ⟨A, a, C, b, D, hq, hA, ha, hhead, hC, hb, hout, hself, -, -⟩ :=
    Ranged.capture_primed_shape self range hr out self1 h
  have hge : ∀ x ∈ C ++ b :: D, get_stamp a ≤ get_stamp x := by
    rw [hq] at hs
    exact (List.pairwise_cons.mp (List.pairwise_append.mp hs).2.1).1
  have hkeep : (a :: (C ++ b :: D)).filter
      (fun d => !decide (get_stamp d < get_stamp a)) = a :: (C ++ b :: D) := by
    apply List.filter_eq_self.mpr
    intro x hx
    have : get_stamp a ≤ get_stamp x := by
      rcases List.mem_cons.mp hx with rfl | hx
      · exact le_refl _
      · exact hge x hx
    simp only [Bool.not_eq_true', decide_eq_false_iff_not, not_lt]
    exact this
  have hq1 : self1.queue_ =
      A.filter (fun d => !decide (get_stamp d < get_stamp a)) ++ a :: (C ++ b :: D) := by
    rw [hself]
    simp only [DispatchQueue.remove_before]
    rw [hq, List.filter_append, hkeep]
  have hdelay : self1.delay_ = self.delay_ := by rw [hself]
  have hA1 : ∀ x ∈ A.filter (fun d => !decide (get_stamp d < get_stamp a)),
      get_stamp x < range.lower_stamp - self1.delay_ := by
    intro x hx
    rw [hdelay]
    exact hA x (List.mem_of_mem_filter hx)
  have hcap := Ranged.capture_of_shape self1 range _ C D a b hq1 hA1
    (by rw [hdelay]; exact ha) (by rw [hdelay]; exact hhead)
    (by rw [hdelay]; exact hC) (by rw [hdelay]; exact hb)
  have hidem : ({ self1 with
      queue_ := DispatchQueue.remove_before (get_stamp a) self1.queue_ } : Ranged α) =
      self1 := by
    rw [hself]
    simp [DispatchQueue.remove_before, List.filter_filter]
  rw [hidem, ← hout] at hcap
  refine ⟨hcap, ?_⟩
  obtain ⟨s, out2, self2, hc, hd⟩ := Ranged.capture_dry_capture self1 range
  rw [hcap] at hc
  simp only [Option.some.injEq, Prod.mk.injEq] at hc
  rw [hd, ← hc.1, ← hc.2.2]

/-- Witness for C22: delay 1, range `(6, 10)`, queue stamps 3, 4, 4, 6, 10; the capture
emits stamps 4, 6, 10 and leaves stamps 4, 4, 6, 10, on which the same capture emits
the same dispatches and removes nothing. -/
theorem C22_ranged_capture_idempotent_witness :
    NonDecreasing ranged_repeated.queue_ ∧
    (⟨6, 10⟩ : CaptureRange).lower_stamp ≤ (⟨6, 10⟩ : CaptureRange).upper_stamp ∧
    ranged_repeated.capture_follower_impl ⟨6, 10⟩ =
      some (State.PRIMED, [⟨4, 2⟩, ⟨6, 3⟩, ⟨10, 4⟩],
        ⟨1, [⟨4, 1⟩, ⟨4, 2⟩, ⟨6, 3⟩, ⟨10, 4⟩]⟩) ∧
    (Ranged.capture_follower_impl (⟨1, [⟨4, 1⟩, ⟨4, 2⟩, ⟨6, 3⟩, ⟨10, 4⟩]⟩ : Ranged Nat)
        ⟨6, 10⟩ =
      some (State.PRIMED, [⟨4, 2⟩, ⟨6, 3⟩, ⟨10, 4⟩],
        ⟨1, [⟨4, 1⟩, ⟨4, 2⟩, ⟨6, 3⟩, ⟨10, 4⟩]⟩) ∧
    Ranged.dry_capture_follower_impl
        (⟨1, [⟨4, 1⟩, ⟨4, 2⟩, ⟨6, 3⟩, ⟨10, 4⟩]⟩ : Ranged Nat) ⟨6, 10⟩ =
      some (State.PRIMED, ⟨1, [⟨4, 1⟩, ⟨4, 2⟩, ⟨6, 3⟩, ⟨10, 4⟩]⟩)) :=
  ⟨by decide, by decide, by decide,
    C22_ranged_capture_idempotent ranged_repeated ⟨6, 10⟩ (by decide) (by decide)
      [⟨4, 2⟩, ⟨6, 3⟩, ⟨10, 4⟩] ⟨1, [⟨4, 1⟩, ⟨4, 2⟩, ⟨6, 3⟩, ⟨10, 4⟩]⟩ (by decide)⟩

end flow
